import Mathlib

/-!
Streaming decoder for the items of a JSON array (package jsonarray).

Shallow embedding of `jsonarray.go` and `multireader.go`.

* Go `error` values are `Option Err` (`none` is `nil`).
* The member readers of the reader stack (`*bytes.Reader`, `*bufio.Reader`)
  are library types; they are modelled by `Reader`, a script of what the
  reader still has to deliver.
* `encoding/json.Decoder` is a library type; it is modelled by
  `ValueParser`, a byte-at-a-time scanner supplied as a parameter, driven
  by the read loop of `json.Decoder.readValue`.
* The Go `for` loops are unbounded; the embedding runs them for at most
  `stackReader.size + 1` rounds and returns `none` if that bound were ever
  reached (`Decoder.Decode_returns` shows it never is).
-/

namespace Jsonarray

/-- One byte of the stream. -/
abbrev Byte := Nat

/-- Error values seen by the decoder. -/
inductive Err
  | EOF
  | ErrUnexpectedEOF
  | ErrNotArray (Bad : Byte)
  | ErrNotCommaSeparated (Bad : Byte)
  | other (code : Nat)
  deriving DecidableEq, Repr

/-- Member of the reader stack (the Go interface `reader`).
`bytesReader s` is a `*bytes.Reader` with unread portion `s`.
`stream chunks eager final` is any other reader: each `Read` delivers (a part
of) the next chunk, and once every chunk is delivered each call returns the
error `final`; when `eager` is set the last chunk is returned together with
`final`. -/
inductive Reader
  | bytesReader (s : List Byte)
  | stream (chunks : List (List Byte)) (eager : Bool) (final : Err)
  deriving DecidableEq, Repr

/-- Method `Read(p)` of a member reader with `len(p) = n`. -/
def Reader.Read : Reader → Nat → (List Byte × Option Err) × Reader
  | .bytesReader [], _ => (([], some .EOF), .bytesReader [])
  | .bytesReader (b :: s), n => (((b :: s).take n, none), .bytesReader ((b :: s).drop n))
  | .stream [] eager final, _ => (([], some final), .stream [] eager final)
  | .stream (c :: cs) eager final, n =>
    if c.length ≤ n then
      ((c, if cs = [] ∧ eager = true then some final else none), .stream cs eager final)
    else ((c.take n, none), .stream (c.drop n :: cs) eager final)

/-- First byte still to be delivered by a list of chunks, and the chunks left. -/
def nextByte : List (List Byte) → Option (Byte × List (List Byte))
  | [] => none
  | [] :: cs => nextByte cs
  | (b :: c) :: cs => some (b, if c = [] then cs else c :: cs)

/-- Method `ReadByte()` of a member reader. -/
def Reader.ReadByte : Reader → (Byte × Option Err) × Reader
  | .bytesReader [] => ((0, some .EOF), .bytesReader [])
  | .bytesReader (b :: s) => ((b, none), .bytesReader s)
  | .stream cs eager final =>
    match nextByte cs with
    | none => ((0, some final), .stream [] eager final)
    | some (b, cs') => ((b, none), .stream cs' eager final)

/-- Go `isEmpty`: peeks inside a `bytes.Reader` to see if it has been drained. -/
def isEmpty : Reader → Bool
  | .bytesReader s => s.length == 0
  | .stream _ _ _ => false

/-- Go `stackReader`. The list holds the front of the queue first: `readers.head`
is the Go `mr.readers[len(mr.readers)-1]`. -/
structure stackReader where
  readers : List Reader
  deriving DecidableEq, Repr

/-- Loop of `stackReader.Read` over the stack, front of the queue first. In the
last branch the top reader returned `(0, io.EOF)`, so it has been popped and
the loop goes on with the readers below it. -/
def readLoop : List Reader → Nat → (List Byte × Option Err) × List Reader
  | [], _ => (([], some .EOF), [])
  | r :: rest, n =>
    let res := r.Read n
    let readers := if res.1.2 = some .EOF ∨ isEmpty res.2 = true then rest else res.2 :: rest
    if res.1.1.length > 0 ∨ res.1.2 ≠ some .EOF then
      ((res.1.1, if res.1.2 = some .EOF then none else res.1.2), readers)
    else readLoop rest n

/-- Go `stackReader.Read(p)` with `len(p) = n`. -/
def stackReader.Read (mr : stackReader) (n : Nat) : (List Byte × Option Err) × stackReader :=
  let res := readLoop mr.readers n
  (res.1, ⟨res.2⟩)

/-- Loop of `stackReader.ReadByte` over the stack, front of the queue first. -/
def readByteLoop : List Reader → (Byte × Option Err) × List Reader
  | [] => ((0, some .EOF), [])
  | r :: rest =>
    let res := r.ReadByte
    if res.1.2 = some .EOF then readByteLoop rest
    else (res.1, res.2 :: rest)

/-- Go `stackReader.ReadByte()`. -/
def stackReader.ReadByte (mr : stackReader) : (Byte × Option Err) × stackReader :=
  let res := readByteLoop mr.readers
  (res.1, ⟨res.2⟩)

/-- Go `stackReader.Insert(r)`: insert reader in front of the queue. Every `Reader`
has `ReadByte`, so the `bufio` wrapping branch is not taken. -/
def stackReader.Insert (mr : stackReader) (r : Reader) : stackReader :=
  if isEmpty r = true then mr else ⟨r :: mr.readers⟩

/-- Bytes a member reader has still to deliver. -/
def Reader.rest : Reader → List Byte
  | .bytesReader s => s
  | .stream chunks _ _ => chunks.flatten

/-- Error a member reader returns once drained. -/
def Reader.final : Reader → Err
  | .bytesReader _ => .EOF
  | .stream _ _ final => final

/-- Loop bound: readers, chunks and bytes still held by a member reader. -/
def Reader.size : Reader → Nat
  | .bytesReader s => s.length + 1
  | .stream chunks _ _ => (chunks.map (fun c => c.length + 1)).sum + 1

/-- Loop bound for a whole stack. -/
def stackReader.size (mr : stackReader) : Nat :=
  (mr.readers.map Reader.size).sum

/-- Concatenation of the readers' remaining bytes, top of the stack first. -/
def stackReader.remaining (mr : stackReader) : List Byte :=
  (mr.readers.map Reader.rest).flatten

/-- Bytes that reads of the stack can still return: the readers' remaining bytes,
top of the stack first, down to the first reader that ends in an error other
than `io.EOF` (such a reader is never popped). -/
def logicalBytes : List Reader → List Byte
  | [] => []
  | r :: rest => if r.final = .EOF then r.rest ++ logicalBytes rest else r.rest

/-- Error that reads of the stack return once `logicalBytes` are delivered. -/
def logicalFinal : List Reader → Err
  | [] => .EOF
  | r :: rest => if r.final = .EOF then logicalFinal rest else r.final

/-- Bytes still readable from the stack. -/
def stackReader.bytes (mr : stackReader) : List Byte :=
  logicalBytes mr.readers

/-- Error that ends the stack's stream. -/
def stackReader.final (mr : stackReader) : Err :=
  logicalFinal mr.readers

/-- Whitespace of RFC 7159 section 2, the bytes skipped by `readNonWhitespace`
(and Go `isSpace` of `encoding/json`). -/
def isWhitespace (c : Byte) : Bool :=
  c == 0x20 || c == 0x09 || c == 0x0A || c == 0x0D

/-- Loop of `Decoder.readNonWhitespace`, at most `fuel` rounds. -/
def readNonWhitespaceLoop : Nat → stackReader → Option ((Byte × Option Err) × stackReader)
  | 0, _ => none
  | fuel + 1, mr =>
    let res := mr.ReadByte
    if res.1.2 ≠ none then some res
    else if isWhitespace res.1.1 = true then readNonWhitespaceLoop fuel res.2
    else some ((res.1.1, none), res.2)

/-- Result of one scanner step of the value parser (`scanner.step` of
`encoding/json`): `more` the value goes on, `endBefore` the value was complete
before this byte (`scanEnd`), `endWith` the value ends with this byte (a closing
bracket at top level), `error` a syntax error. -/
inductive ScanStep (S : Type)
  | more (s : S)
  | endBefore
  | endWith
  | error (e : Err)

/-- The external single-value parser, `encoding/json.Decoder` with the destination
type fixed: a scanner fed one byte at a time, what the scanner says at end of
input, the decoding of the value text, and `room`, the size of the buffer the
parser offers to each `Read` (minus one) as a function of the bytes it holds. -/
structure ValueParser (S V : Type) where
  init : S
  step : S → Byte → ScanStep S
  eofOk : S → Bool
  unmarshal : List Byte → Except Err V
  room : Nat → Nat

/-- What a scan over the buffered bytes found. -/
inductive ScanOutcome (S : Type)
  | needMore (s : S)
  | value (n : Nat)
  | error (e : Err)

/-- Scan `data`, the bytes at positions `pos`, `pos + 1`, ... of the parser buffer. -/
def ValueParser.scan {S V : Type} (P : ValueParser S V) : S → Nat → List Byte → ScanOutcome S
  | s, _, [] => .needMore s
  | s, pos, c :: cs =>
    match P.step s c with
    | .more s' => P.scan s' (pos + 1) cs
    | .endBefore => .value pos
    | .endWith => .value (pos + 1)
    | .error e => .error e

/-- Go `nonSpace` of `encoding/json`. -/
def nonSpace (b : List Byte) : Bool :=
  b.any (fun c => !isWhitespace c)

/-- Loop of `json.Decoder.readValue` over the stackReader, at most `fuel` rounds:
refill with one `Read`, scan the new bytes, and only then look at the error of
the read. Returns the length of the value, the parser buffer and the stack. -/
def ValueParser.readValue {S V : Type} (P : ValueParser S V) :
    Nat → S → List Byte → stackReader → Option (Except Err Nat × List Byte × stackReader)
  | 0, _, _, _ => none
  | fuel + 1, s, buf, mr =>
    let res := mr.Read (P.room buf.length + 1)
    match P.scan s buf.length res.1.1 with
    | .value n => some (.ok n, buf ++ res.1.1, res.2)
    | .error e => some (.error e, buf ++ res.1.1, res.2)
    | .needMore s' =>
      match res.1.2 with
      | none => P.readValue fuel s' (buf ++ res.1.1) res.2
      | some e =>
        if e = .EOF then
          if P.eofOk s' = true then some (.ok (buf ++ res.1.1).length, buf ++ res.1.1, res.2)
          else if nonSpace (buf ++ res.1.1) = true then
            some (.error .ErrUnexpectedEOF, buf ++ res.1.1, res.2)
          else some (.error .EOF, buf ++ res.1.1, res.2)
        else some (.error e, buf ++ res.1.1, res.2)

/-- A fresh `json.NewDecoder(mr)`, one `Decode(v)` and `Buffered()`: the error or
the decoded value, the bytes buffered past the value, and the stack. -/
def ValueParser.Decode {S V : Type} (P : ValueParser S V) (mr : stackReader) :
    Option (Except Err V × List Byte × stackReader) :=
  match P.readValue (mr.size + 1) P.init [] mr with
  | none => none
  | some (.error e, _, mr') => some (.error e, [], mr')
  | some (.ok n, buf, mr') => some (P.unmarshal (buf.take n), buf.drop n, mr')

/-- Go `state`. -/
inductive state
  | start
  | after
  | broken
  deriving DecidableEq, Repr

/-- Go `Decoder`. -/
structure Decoder where
  state : state
  r : stackReader
  err : Option Err
  deriving DecidableEq, Repr

/-- Model of `bufio.NewReader(r)`: the same script behind a reader that is not
a `*bytes.Reader`. -/
def bufioNewReader : Reader → Reader
  | .bytesReader s => .stream [s] false .EOF
  | .stream chunks eager final => .stream chunks eager final

/-- Go `NewDecoder`. -/
def NewDecoder (r : Reader) : Decoder :=
  { state := .start, r := ⟨[bufioNewReader r]⟩, err := none }

/-- Go `Decoder.readNonWhitespace`. -/
def Decoder.readNonWhitespace (d : Decoder) : Option ((Byte × Option Err) × stackReader) :=
  readNonWhitespaceLoop (d.r.size + 1) d.r

/-- Go `Decoder.breaks`, on the decoder whose stack is `mr`. -/
def Decoder.breaks (d : Decoder) (mr : stackReader) (err : Option Err) : Option Err × Decoder :=
  (err, { d with r := mr, err := err, state := .broken })

/-- The part of `Decoder.Decode` after the `switch`: parse one item from the stack
`mr` and patch the bytes already buffered back into the reader. -/
def Decoder.decodeItem {S V : Type} (P : ValueParser S V) (d : Decoder) (mr : stackReader) :
    Option ((Option Err × Option V) × Decoder) :=
  match P.Decode mr with
  | none => none
  | some (.error e, _, mr') =>
    if e = .EOF then
      let b := d.breaks mr' (some .ErrUnexpectedEOF)
      some ((b.1, none), b.2)
    else
      let b := d.breaks mr' (some e)
      some ((b.1, none), b.2)
  | some (.ok v, buffered, mr') =>
    some ((none, some v), { d with r := mr'.Insert (.bytesReader buffered) })

/-- Go `Decoder.Decode`: the returned error, the value stored through `v` on
success, and the decoder afterwards. -/
def Decoder.Decode {S V : Type} (P : ValueParser S V) (d : Decoder) :
    Option ((Option Err × Option V) × Decoder) :=
  match d.state with
  | .broken => some ((d.err, none), d)
  | .start =>
    match d.readNonWhitespace with
    | none => none
    | some ((c, err), mr) =>
      if err ≠ none then
        let b := d.breaks mr err
        some ((b.1, none), b.2)
      else if c = 0x5B then
        Decoder.decodeItem P { d with state := .after } mr
      else
        let b := d.breaks mr (some (.ErrNotArray c))
        some ((b.1, none), b.2)
  | .after =>
    match d.readNonWhitespace with
    | none => none
    | some ((c, err), mr) =>
      if err = some .EOF then
        let b := d.breaks mr (some .ErrUnexpectedEOF)
        some ((b.1, none), b.2)
      else if err ≠ none then
        let b := d.breaks mr err
        some ((b.1, none), b.2)
      else if c = 0x2C then
        Decoder.decodeItem P d mr
      else if c = 0x5D then
        let b := d.breaks mr (some .EOF)
        some ((b.1, none), b.2)
      else
        let b := d.breaks mr (some (.ErrNotCommaSeparated c))
        some ((b.1, none), b.2)

/-- Results of `n` consecutive `Decode` calls, and the decoder afterwards. -/
def Decoder.DecodeN {S V : Type} (P : ValueParser S V) :
    Nat → Decoder → Option (List (Option Err × Option V) × Decoder)
  | 0, d => some ([], d)
  | n + 1, d =>
    match d.Decode P with
    | none => none
    | some (res, d') =>
      match Decoder.DecodeN P n d' with
      | none => none
      | some (rs, d'') => some (res :: rs, d'')

/-- Scanner states of `sampleParser`. -/
inductive SampleState
  | begin
  | num
  | obj (depth : Nat)
  | str (depth : Nat)
  deriving DecidableEq, Repr

/-- Scanner of `sampleParser`: leading whitespace, then a run of decimal digits or
a brace-balanced object whose strings hold no escapes. -/
def sampleStep : SampleState → Byte → ScanStep SampleState
  | .begin, c =>
    if isWhitespace c = true then .more .begin
    else if 0x30 ≤ c ∧ c ≤ 0x39 then .more .num
    else if c = 0x7B then .more (.obj 0)
    else .error (.other 1)
  | .num, c => if 0x30 ≤ c ∧ c ≤ 0x39 then .more .num else .endBefore
  | .obj depth, c =>
    if c = 0x22 then .more (.str depth)
    else if c = 0x7B then .more (.obj (depth + 1))
    else if c = 0x7D then
      match depth with
      | 0 => .endWith
      | k + 1 => .more (.obj k)
    else .more (.obj depth)
  | .str depth, c => if c = 0x22 then .more (.obj depth) else .more (.str depth)

/-- Decimal value of a run of digits. -/
def digitsValue : List Byte → Nat → Option Nat
  | [], acc => some acc
  | c :: cs, acc => if 0x30 ≤ c ∧ c ≤ 0x39 then digitsValue cs (acc * 10 + (c - 0x30)) else none

/-- Decoding of `sampleParser` into the test type `T` (one field `X int`): the
text is an object with the single key X holding a run of digits. -/
def sampleUnmarshal (text : List Byte) : Except Err Nat :=
  match text.filter (fun c => !isWhitespace c) with
  | 0x7B :: 0x22 :: 0x58 :: 0x22 :: 0x3A :: c :: cs =>
    match ((c :: cs).getLast?, digitsValue ((c :: cs).dropLast) 0) with
    | (some 0x7D, some x) => if cs = [] then .error (.other 2) else .ok x
    | _ => .error (.other 2)
  | _ => .error (.other 2)

/-- A small instance of the value parser, used to run the decoder on concrete
streams. It offers 512 bytes of room to every read. -/
def sampleParser : ValueParser SampleState Nat :=
  { init := .begin, step := sampleStep, eofOk := fun s => decide (s = .num),
    unmarshal := sampleUnmarshal, room := fun _ => 511 }

/-- What `readValue` makes of a read error `fin` once the scanner, in state `s`,
has seen all the bytes `all` of the stream. -/
def ValueParser.endOfInput {S V : Type} (P : ValueParser S V) (s : S) (all : List Byte)
    (fin : Err) : Except Err Nat :=
  if fin = .EOF then
    if P.eofOk s = true then .ok all.length
    else if nonSpace all = true then .error .ErrUnexpectedEOF
    else .error .EOF
  else .error fin

/-- Outcome of `readValue` as a function of the bytes `bs` still readable and the
error `fin` that ends them, for a parser in state `s` holding `buf`. -/
def ValueParser.scanAll {S V : Type} (P : ValueParser S V) (s : S) (buf bs : List Byte)
    (fin : Err) : Except Err Nat :=
  match P.scan s buf.length bs with
  | .value n => .ok n
  | .error e => .error e
  | .needMore s' => P.endOfInput s' (buf ++ bs) fin

/-- What a decoder still has to say: its state, its stored error, and the stream
still readable from its stack. A broken decoder never reads again, so its
stream is left out. -/
structure View where
  state : state
  err : Option Err
  bytes : List Byte
  final : Err
  deriving DecidableEq, Repr

/-- View of a decoder. -/
def Decoder.view (d : Decoder) : View :=
  if d.state = .broken then ⟨.broken, d.err, [], .EOF⟩
  else ⟨d.state, d.err, d.r.bytes, d.r.final⟩

/-- `Decoder.breaks` on views. -/
def View.breaks {V : Type} (err : Option Err) : (Option Err × Option V) × View :=
  ((err, none), ⟨.broken, err, [], .EOF⟩)

/-- `Decoder.decodeItem` on views: parse one item from the stream `bs`, `fin`. -/
def View.decodeItem {S V : Type} (P : ValueParser S V) (err : Option Err) (bs : List Byte)
    (fin : Err) : (Option Err × Option V) × View :=
  match P.scanAll P.init [] bs fin with
  | .error e => View.breaks (some (if e = .EOF then .ErrUnexpectedEOF else e))
  | .ok n =>
    match P.unmarshal (bs.take n) with
    | .error e => View.breaks (some (if e = .EOF then .ErrUnexpectedEOF else e))
    | .ok v => ((none, some v), ⟨.after, err, bs.drop n, fin⟩)

/-- `Decoder.Decode` on views. -/
def View.Decode {S V : Type} (P : ValueParser S V) (a : View) : (Option Err × Option V) × View :=
  match a.state with
  | .broken => ((a.err, none), ⟨.broken, a.err, [], .EOF⟩)
  | .start =>
    match a.bytes.dropWhile isWhitespace with
    | [] => View.breaks (some a.final)
    | c :: t =>
      if c = 0x5B then View.decodeItem P a.err t a.final
      else View.breaks (some (.ErrNotArray c))
  | .after =>
    match a.bytes.dropWhile isWhitespace with
    | [] => View.breaks (some (if a.final = .EOF then .ErrUnexpectedEOF else a.final))
    | c :: t =>
      if c = 0x2C then View.decodeItem P a.err t a.final
      else if c = 0x5D then View.breaks (some .EOF)
      else View.breaks (some (.ErrNotCommaSeparated c))

/-- `Decoder.DecodeN` on views. -/
def View.DecodeN {S V : Type} (P : ValueParser S V) :
    Nat → View → List (Option Err × Option V) × View
  | 0, a => ([], a)
  | n + 1, a => ((View.Decode P a).1 :: (View.DecodeN P n (View.Decode P a).2).1,
      (View.DecodeN P n (View.Decode P a).2).2)

/-- Every byte of `w` is whitespace. -/
def blank (w : List Byte) : Bool :=
  w.all isWhitespace

/-- Bytes that may follow an array item: `,`, `]` and whitespace. -/
def delimiters : List Byte := [0x2C, 0x5D, 0x20, 0x09, 0x0A, 0x0D]

/-- In scanner state `s` every delimiter ends the value. -/
def ValueParser.delimited {S V : Type} (P : ValueParser S V) (s : S) : Bool :=
  delimiters.all fun c =>
    match P.step s c with
    | .endBefore => true
    | _ => false

/-- The value the parser decodes from the item text `e`, when `e` is one complete
value for the parser: the scanner ends the value with the last byte of `e`, or
reaches the end of `e` in a state where any delimiter and the end of input end
the value. -/
def ValueParser.valueOf {S V : Type} (P : ValueParser S V) (e : List Byte) : Option V :=
  match P.scan P.init 0 e with
  | .value n =>
    if n = e.length then
      match P.unmarshal e with
      | .ok v => some v
      | .error _ => none
    else none
  | .needMore s =>
    if P.delimited s = true ∧ P.eofOk s = true then
      match P.unmarshal e with
      | .ok v => some v
      | .error _ => none
    else none
  | .error _ => none

/-- One item of an array text: whitespace `lead`, the value `text`, whitespace `trail`. -/
structure Item where
  lead : List Byte
  text : List Byte
  trail : List Byte
  deriving DecidableEq, Repr

/-- The text after an item: each further item behind a comma, then `close`. -/
def closing : List Item → List Byte → List Byte
  | [], close => close
  | it :: its, close => 0x2C :: (it.lead ++ it.text ++ (it.trail ++ closing its close))

/-- The text after the opening bracket. -/
def arrayBody : List Item → List Byte → List Byte
  | [], close => close
  | it :: its, close => it.lead ++ it.text ++ (it.trail ++ closing its close)

/-- An array text: whitespace `w0`, `[`, the items separated by commas, `close`. A
well-formed array has `close = ]` followed by anything. -/
def arrayText (w0 : List Byte) (items : List Item) (close : List Byte) : List Byte :=
  w0 ++ 0x5B :: arrayBody items close

/-- The stream `[{"X":1};{"X":2}]`. -/
def semicolonStream : List Byte :=
  [0x5B, 0x7B, 0x22, 0x58, 0x22, 0x3A, 0x31, 0x7D, 0x3B,
   0x7B, 0x22, 0x58, 0x22, 0x3A, 0x32, 0x7D, 0x5D]

/-- The decoder after the first `Decode` on `semicolonStream` read in one block. -/
def semicolonAfterFirst : Decoder :=
  { state := .after,
    r := ⟨[.bytesReader [0x3B, 0x7B, 0x22, 0x58, 0x22, 0x3A, 0x32, 0x7D, 0x5D],
           .stream [] false .EOF]⟩,
    err := none }

/-- The decoder after the first `Decode` on the stream `x`. -/
def notArrayBroken : Decoder :=
  { state := .broken, r := ⟨[.stream [] false .EOF]⟩, err := some (.ErrNotArray 0x78) }

/-- What may follow an item text for `valueOf` to apply: a delimiter, or the end of
a stream that ends with `io.EOF`. -/
def Follows (rest : List Byte) (fin : Err) : Prop :=
  (rest = [] ∧ fin = .EOF) ∨ ∃ c t, rest = c :: t ∧ c ∈ delimiters

/-- Results of successful decodes of the items, in order. -/
def itemResults {S V : Type} (P : ValueParser S V) (items : List Item) :
    List (Option Err × Option V) :=
  items.map fun it => (none, P.valueOf (it.lead ++ it.text))

/-- The items are well formed for the parser: whitespace after each value, and
each value text, with the whitespace before it, is one complete value. -/
def WellFormed {S V : Type} (P : ValueParser S V) (items : List Item) : Prop :=
  ∀ it ∈ items, blank it.trail = true ∧ (P.valueOf (it.lead ++ it.text)).isSome = true

/-- The items of the test input `[{"X":1},  {"X" :2  }  ,  { "X" : 3  } ]  `. -/
def simpleItems : List Item :=
  [ { lead := [], text := [0x7B, 0x22, 0x58, 0x22, 0x3A, 0x31, 0x7D], trail := [] },
    { lead := [0x20, 0x20],
      text := [0x7B, 0x22, 0x58, 0x22, 0x20, 0x3A, 0x32, 0x20, 0x20, 0x7D],
      trail := [0x20, 0x20] },
    { lead := [0x20, 0x20],
      text := [0x7B, 0x20, 0x22, 0x58, 0x22, 0x20, 0x3A, 0x20, 0x33, 0x20, 0x20, 0x7D],
      trail := [0x20] } ]

/-- The item of the test input `[{"X":1},`. -/
def earlyItems : List Item :=
  [ { lead := [], text := [0x7B, 0x22, 0x58, 0x22, 0x3A, 0x31, 0x7D], trail := [] } ]

/-- The items of `simpleItems` without the whitespace around them. -/
def compactItems : List Item :=
  simpleItems.map fun it => { lead := [], text := it.text, trail := [] }

/-- One call on the stackReader: `Read(p)` with `len(p) = n`, or `ReadByte()`. -/
inductive Call
  | Read (n : Nat)
  | ReadByte
  deriving DecidableEq, Repr

/-- The bytes and the error one call returns (a `ReadByte` that fails returns no
byte), and the stack afterwards. -/
def stackReader.call (mr : stackReader) : Call → (List Byte × Option Err) × stackReader
  | .Read n => mr.Read n
  | .ReadByte =>
    ((if (mr.ReadByte).1.2 = none then [(mr.ReadByte).1.1] else [], (mr.ReadByte).1.2),
      (mr.ReadByte).2)

/-- A sequence of calls, one after the other. -/
def stackReader.calls : stackReader → List Call → List (List Byte × Option Err) × stackReader
  | mr, [] => ([], mr)
  | mr, c :: cs => ((mr.call c).1 :: ((mr.call c).2.calls cs).1, ((mr.call c).2.calls cs).2)

/-- All the bytes a sequence of calls returned, in order. -/
def delivered (results : List (List Byte × Option Err)) : List Byte :=
  (results.map fun x => x.1).flatten

/-- The stack holds a `bytes.Reader` with zero remaining bytes. -/
def stackReader.drained (mr : stackReader) : Bool :=
  mr.readers.any isEmpty

/-- The state of a decoder agrees with its stored error. -/
def Decoder.Consistent (d : Decoder) : Prop :=
  (d.state = .broken ∧ d.err ≠ none) ∨ (d.state ≠ .broken ∧ d.err = none)

/-! Properties of the member readers and the reader stack. -/

theorem nextByte_none {cs : List (List Byte)} (h : nextByte cs = none) : cs.flatten = [] := by
  induction cs with
  | nil => rfl
  | cons c cs ih =>
    cases c with
    | nil => simpa [nextByte] using ih (by simpa [nextByte] using h)
    | cons b c => simp [nextByte] at h

theorem nextByte_some {cs cs' : List (List Byte)} {b : Byte} (h : nextByte cs = some (b, cs')) :
    cs.flatten = b :: cs'.flatten ∧
      (cs'.map (fun c => c.length + 1)).sum < (cs.map (fun c => c.length + 1)).sum := by
  induction cs with
  | nil => simp [nextByte] at h
  | cons c cs ih =>
    cases c with
    | nil =>
      have := ih (by simpa [nextByte] using h)
      refine ⟨by simpa using this.1, ?_⟩
      simp only [List.map_cons, List.sum_cons, List.length_nil]
      omega
    | cons x c =>
      simp only [nextByte, Option.some.injEq, Prod.mk.injEq] at h
      obtain ⟨rfl, rfl⟩ := h
      by_cases hc : c = []
      · subst hc
        simp
      · simp [hc]

theorem Reader.ReadByte_spec (r : Reader) :
    (∃ c r', r.ReadByte = ((c, none), r') ∧ r.rest = c :: r'.rest ∧ r'.final = r.final ∧
        r'.size < r.size) ∨
    (∃ r', r.ReadByte = ((0, some r.final), r') ∧ r.rest = [] ∧ r'.rest = [] ∧
        r'.final = r.final ∧ r'.size ≤ r.size) := by
  cases r with
  | bytesReader s =>
    cases s with
    | nil => exact Or.inr ⟨_, rfl, rfl, rfl, rfl, le_refl _⟩
    | cons b s => exact Or.inl ⟨b, _, rfl, rfl, rfl, by simp [Reader.size]⟩
  | stream cs eager final =>
    cases h : nextByte cs with
    | none =>
      refine Or.inr ⟨.stream [] eager final, ?_, ?_, rfl, rfl, ?_⟩
      · simp [Reader.ReadByte, h, Reader.final]
      · simpa [Reader.rest] using nextByte_none h
      · simp [Reader.size]
    | some p =>
      obtain ⟨b, cs'⟩ := p
      have := nextByte_some h
      refine Or.inl ⟨b, .stream cs' eager final, ?_, ?_, rfl, ?_⟩
      · simp [Reader.ReadByte, h]
      · simpa [Reader.rest] using this.1
      · simpa [Reader.size] using this.2

theorem Reader.Read_spec (r : Reader) (n : Nat) :
    r.rest = (r.Read n).1.1 ++ (r.Read n).2.rest ∧ (r.Read n).2.final = r.final ∧
    ((r.Read n).1.2 = none → 0 < n → (r.Read n).2.size < r.size) ∧
    (∀ e, (r.Read n).1.2 = some e → e = r.final ∧ (r.Read n).2.rest = []) ∧
    (isEmpty (r.Read n).2 = true → (r.Read n).2.rest = [] ∧ r.final = .EOF) := by
  cases r with
  | bytesReader s =>
    cases s with
    | nil => simp [Reader.Read, Reader.rest, Reader.final, isEmpty]
    | cons b s =>
      refine ⟨?_, rfl, ?_, ?_, ?_⟩
      · simp [Reader.Read, Reader.rest]
      · intro _ hn
        simp only [Reader.Read, Reader.size, List.length_drop, List.length_cons]
        omega
      · simp [Reader.Read]
      · simp only [Reader.Read, isEmpty, Reader.rest, Reader.final]
        intro h
        exact ⟨List.length_eq_zero.mp (by simpa using h), trivial⟩
  | stream cs eager final =>
    cases cs with
    | nil => simp [Reader.Read, Reader.rest, Reader.final, isEmpty]
    | cons c cs =>
      by_cases hc : c.length ≤ n
      · simp only [Reader.Read, hc, if_true, Reader.rest, Reader.final, isEmpty]
        refine ⟨by simp, trivial, ?_, ?_, by simp⟩
        · intro _ _
          simp [Reader.size]
        · intro e he
          split at he
          · rename_i h
            simp only [Option.some.injEq] at he
            simp [h.1, he]
          · simp at he
      · simp only [Reader.Read, hc, if_false, Reader.rest, Reader.final, isEmpty]
        refine ⟨?_, trivial, ?_, by simp, by simp⟩
        · simp only [List.flatten_cons, ← List.append_assoc, List.take_append_drop]
        intro _ hn
        simp only [Reader.size, List.map_cons, List.sum_cons, List.length_drop]
        omega

/-- Loop bound on a list of readers. -/
theorem size_cons (r : Reader) (rest : List Reader) :
    stackReader.size ⟨r :: rest⟩ = r.size + stackReader.size ⟨rest⟩ := by
  simp [stackReader.size]

theorem Reader.size_pos (r : Reader) : 0 < r.size := by
  cases r <;> simp [Reader.size]

theorem readByteLoop_spec (rs : List Reader) :
    (∃ c rs', readByteLoop rs = ((c, none), rs') ∧ logicalBytes rs = c :: logicalBytes rs' ∧
        (rs.map Reader.rest).flatten = c :: (rs'.map Reader.rest).flatten ∧
        logicalFinal rs' = logicalFinal rs ∧
        stackReader.size ⟨rs'⟩ < stackReader.size ⟨rs⟩) ∨
    (∃ rs', readByteLoop rs = ((0, some (logicalFinal rs)), rs') ∧ logicalBytes rs = [] ∧
        logicalBytes rs' = [] ∧ logicalFinal rs' = logicalFinal rs ∧
        stackReader.size ⟨rs'⟩ ≤ stackReader.size ⟨rs⟩) := by
  induction rs with
  | nil => exact Or.inr ⟨[], rfl, rfl, rfl, rfl, le_refl _⟩
  | cons r rest ih =>
    rcases Reader.ReadByte_spec r with ⟨c, r', h, hrest, hfin, hsz⟩ | ⟨r', h, hrest, hrest', hfin, hsz⟩
    · refine Or.inl ⟨c, r' :: rest, ?_, ?_, ?_, ?_, ?_⟩
      · simp [readByteLoop, h]
      · simp only [logicalBytes, hfin, hrest]
        split <;> simp
      · simp [hrest]
      · simp [logicalFinal, hfin]
      · simp only [size_cons]
        omega
    · by_cases hE : r.final = .EOF
      · have hloop : readByteLoop (r :: rest) = readByteLoop rest := by
          simp [readByteLoop, h, hE]
        rcases ih with ⟨c, rs', h2, hb, hr, hf, hs⟩ | ⟨rs', h2, hb, hb', hf, hs⟩
        · refine Or.inl ⟨c, rs', by rw [hloop, h2], ?_, ?_, ?_, ?_⟩
          · simp [logicalBytes, hE, hrest, hb]
          · simp [hrest, hr]
          · simp [logicalFinal, hE, hf]
          · simp only [size_cons]
            omega
        · refine Or.inr ⟨rs', ?_, ?_, hb', ?_, ?_⟩
          · rw [hloop, h2]
            simp [logicalFinal, hE]
          · simp [logicalBytes, hE, hrest, hb]
          · simp [logicalFinal, hE, hf]
          · simp only [size_cons]
            omega
      · refine Or.inr ⟨r' :: rest, ?_, ?_, ?_, ?_, ?_⟩
        · simp [readByteLoop, h, hE, logicalFinal]
        · simp [logicalBytes, hE, hrest]
        · simp [logicalBytes, hfin, hE, hrest']
        · simp [logicalFinal, hfin, hE]
        · simp only [size_cons]
          omega

theorem readLoop_spec (rs : List Reader) (n : Nat) :
    (rs.map Reader.rest).flatten = (readLoop rs n).1.1 ++ ((readLoop rs n).2.map Reader.rest).flatten ∧
    logicalBytes rs = (readLoop rs n).1.1 ++ logicalBytes (readLoop rs n).2 ∧
    logicalFinal (readLoop rs n).2 = logicalFinal rs ∧
    ((readLoop rs n).1.2 = none → 0 < n →
      stackReader.size ⟨(readLoop rs n).2⟩ < stackReader.size ⟨rs⟩) ∧
    (∀ e, (readLoop rs n).1.2 = some e →
      e = logicalFinal rs ∧ logicalBytes (readLoop rs n).2 = [] ∧ (e = .EOF → (readLoop rs n).1.1 = [])) := by
  induction rs with
  | nil => simp [readLoop, logicalBytes, logicalFinal]
  | cons r rest ih =>
    obtain ⟨hrest, hfin, hsz, herr, hemp⟩ := Reader.Read_spec r n
    obtain ⟨ih1, ih2, ih3, ih4, ih5⟩ := ih
    have hpos := Reader.size_pos r
    generalize hres : r.Read n = res at hrest hfin hsz herr hemp
    obtain ⟨⟨data, err⟩, r'⟩ := res
    simp only at hrest hfin hsz herr hemp
    cases err with
    | none =>
      by_cases hE : isEmpty r' = true
      · obtain ⟨h1, h2⟩ := hemp hE
        simp only [readLoop, hres, hE, or_true, if_true, ne_eq, not_false_eq_true, reduceCtorEq,
          if_false]
        refine ⟨?_, ?_, ?_, ?_, ?_⟩
        · simp [hrest, h1]
        · simp [logicalBytes, h2, hrest, h1]
        · simp [logicalFinal, h2]
        · intro _ _
          simp only [size_cons]
          omega
        · simp
      · simp only [readLoop, hres, hE, or_false, ne_eq, not_false_eq_true, reduceCtorEq, or_true,
          if_true, if_false]
        refine ⟨?_, ?_, ?_, ?_, ?_⟩
        · simp [hrest]
        · simp only [logicalBytes, hfin, hrest]
          split <;> simp
        · simp [logicalFinal, hfin]
        · intro _ hn
          have := hsz rfl hn
          simp only [size_cons]
          omega
        · simp
    | some e =>
      obtain ⟨he, hr'⟩ := herr e rfl
      by_cases hE : e = .EOF
      · subst hE
        by_cases hd : data.length > 0
        · simp only [readLoop, hres, true_or, if_true, hd]
          refine ⟨?_, ?_, ?_, ?_, ?_⟩
          · simp [hrest, hr']
          · simp [logicalBytes, ← he, hrest, hr']
          · simp [logicalFinal, ← he]
          · intro _ _
            simp only [size_cons]
            omega
          · simp
        · have hd0 : data = [] := by
            cases data with
            | nil => rfl
            | cons a l => simp at hd
          subst hd0
          have hloop : readLoop (r :: rest) n = readLoop rest n := by
            simp [readLoop, hres]
          rw [hloop]
          refine ⟨?_, ?_, ?_, ?_, ?_⟩
          · simpa [hrest, hr'] using ih1
          · simpa [logicalBytes, ← he, hrest, hr'] using ih2
          · simpa [logicalFinal, ← he] using ih3
          · intro h1 h2
            have := ih4 h1 h2
            simp only [size_cons]
            omega
          · intro e' h'
            simpa [logicalFinal, ← he] using ih5 e' h'
      · have hne : r.final ≠ .EOF := he ▸ hE
        have hnE : isEmpty r' = false := by
          cases r' with
          | bytesReader s => simp [Reader.final] at hfin; exact absurd hfin.symm hne
          | stream _ _ _ => rfl
        simp only [readLoop, hres, Option.some.injEq, hE, hnE, or_self, if_false, ne_eq,
          not_false_eq_true, or_true, if_true, Bool.false_eq_true]
        refine ⟨?_, ?_, ?_, ?_, ?_⟩
        · simp [hrest]
        · simp [logicalBytes, hne, hfin, hrest, hr']
        · simp [logicalFinal, hfin, hne]
        · simp
        · intro e' h'
          subst h'
          simp [logicalFinal, hne, he, logicalBytes, hfin, hr', hE]

theorem stackReader.ReadByte_stack (mr : stackReader) :
    (∃ c mr', mr.ReadByte = ((c, none), mr') ∧ mr.bytes = c :: mr'.bytes ∧
        mr.remaining = c :: mr'.remaining ∧ mr'.final = mr.final ∧ mr'.size < mr.size) ∨
    (∃ mr', mr.ReadByte = ((0, some mr.final), mr') ∧ mr.bytes = [] ∧ mr'.bytes = [] ∧
        mr'.final = mr.final ∧ mr'.size ≤ mr.size) := by
  rcases readByteLoop_spec mr.readers with ⟨c, rs', h, h1, h2, h3, h4⟩ | ⟨rs', h, h1, h2, h3, h4⟩
  · exact Or.inl ⟨c, ⟨rs'⟩, by simp [stackReader.ReadByte, h], h1, h2, h3, h4⟩
  · exact Or.inr ⟨⟨rs'⟩, by simp [stackReader.ReadByte, h, stackReader.final], h1, h2, h3, h4⟩

theorem stackReader.Read_stack (mr : stackReader) (n : Nat) :
    mr.remaining = (mr.Read n).1.1 ++ (mr.Read n).2.remaining ∧
    mr.bytes = (mr.Read n).1.1 ++ (mr.Read n).2.bytes ∧
    (mr.Read n).2.final = mr.final ∧
    ((mr.Read n).1.2 = none → 0 < n → (mr.Read n).2.size < mr.size) ∧
    (∀ e, (mr.Read n).1.2 = some e →
      e = mr.final ∧ (mr.Read n).2.bytes = [] ∧ (e = .EOF → (mr.Read n).1.1 = [])) :=
  readLoop_spec mr.readers n

/-- Every byte of the list is whitespace. -/
theorem dropWhile_whitespace {w : List Byte} (hw : ∀ c ∈ w, isWhitespace c = true) (t : List Byte) :
    (w ++ t).dropWhile isWhitespace = t.dropWhile isWhitespace := by
  induction w with
  | nil => rfl
  | cons a w ih =>
    have ha : isWhitespace a = true := hw a (by simp)
    simp only [List.cons_append, List.dropWhile_cons, ha, if_true]
    exact ih (fun c hc => hw c (by simp [hc]))

theorem readNonWhitespaceLoop_spec (fuel : Nat) (mr : stackReader) (hfuel : mr.size < fuel) :
    (∃ w c mr', readNonWhitespaceLoop fuel mr = some ((c, none), mr') ∧
        (∀ x ∈ w, isWhitespace x = true) ∧ isWhitespace c = false ∧
        mr.bytes = w ++ c :: mr'.bytes ∧ mr.remaining = w ++ c :: mr'.remaining ∧
        mr'.final = mr.final ∧ mr'.size < mr.size) ∨
    (∃ mr', readNonWhitespaceLoop fuel mr = some ((0, some mr.final), mr') ∧
        (∀ x ∈ mr.bytes, isWhitespace x = true) ∧ mr'.bytes = [] ∧ mr'.final = mr.final) := by
  induction fuel generalizing mr with
  | zero => omega
  | succ fuel ih =>
    rcases stackReader.ReadByte_stack mr with ⟨c, mr1, h, hb, hr, hf, hs⟩ | ⟨mr1, h, hb, hb', hf, _⟩
    · by_cases hc : isWhitespace c = true
      · have hstep : readNonWhitespaceLoop (fuel + 1) mr = readNonWhitespaceLoop fuel mr1 := by
          simp [readNonWhitespaceLoop, h, hc]
        rw [hstep]
        rcases ih mr1 (by omega) with ⟨w, c', mr', h', hw, hc', hb2, hr2, hf2, hs2⟩ |
          ⟨mr', h', hw, hb2, hf2⟩
        · refine Or.inl ⟨c :: w, c', mr', h', ?_, hc', ?_, ?_, by rw [hf2, hf], by omega⟩
          · intro x hx
            rcases List.mem_cons.mp hx with rfl | hx
            · exact hc
            · exact hw x hx
          · simp [hb, hb2]
          · simp [hr, hr2]
        · refine Or.inr ⟨mr', by rw [h', hf], ?_, hb2, by rw [hf2, hf]⟩
          intro x hx
          rw [hb] at hx
          rcases List.mem_cons.mp hx with rfl | hx
          · exact hc
          · exact hw x hx
      · refine Or.inl ⟨[], c, mr1, ?_, by simp, by simpa using hc, by simpa using hb,
          by simpa using hr, hf, hs⟩
        simp [readNonWhitespaceLoop, h, hc]
    · refine Or.inr ⟨mr1, ?_, by simp [hb], hb', hf⟩
      simp [readNonWhitespaceLoop, h]

/-! The value parser over the reader stack. -/

theorem ValueParser.scan_append {S V : Type} (P : ValueParser S V) (s : S) (pos : Nat)
    (a b : List Byte) :
    P.scan s pos (a ++ b) =
      match P.scan s pos a with
      | .needMore s' => P.scan s' (pos + a.length) b
      | .value n => .value n
      | .error e => .error e := by
  induction a generalizing s pos with
  | nil => simp [ValueParser.scan]
  | cons c a ih =>
    rw [List.cons_append]
    simp only [ValueParser.scan, List.length_cons]
    cases P.step s c with
    | more s' =>
      simp only
      rw [ih]
      have : pos + 1 + a.length = pos + (a.length + 1) := by omega
      rw [this]
    | endBefore => rfl
    | endWith => rfl
    | error e => rfl

theorem ValueParser.scan_value_bounds {S V : Type} (P : ValueParser S V) (s : S) (pos : Nat)
    (a : List Byte) (n : Nat) (h : P.scan s pos a = .value n) : pos ≤ n ∧ n ≤ pos + a.length := by
  induction a generalizing s pos with
  | nil => simp [ValueParser.scan] at h
  | cons c a ih =>
    simp only [ValueParser.scan] at h
    cases hs : P.step s c with
    | more s' =>
      rw [hs] at h
      have := ih s' (pos + 1) h
      simp only [List.length_cons]
      omega
    | endBefore =>
      rw [hs] at h
      simp only [ScanOutcome.value.injEq] at h
      simp only [List.length_cons]
      omega
    | endWith =>
      rw [hs] at h
      simp only [ScanOutcome.value.injEq] at h
      simp only [List.length_cons]
      omega
    | error e =>
      rw [hs] at h
      simp at h

theorem ValueParser.readValue_spec {S V : Type} (P : ValueParser S V) (fuel : Nat) (s : S)
    (buf : List Byte) (mr : stackReader) (hfuel : mr.size < fuel) :
    ∃ buf' mr', P.readValue fuel s buf mr = some (P.scanAll s buf mr.bytes mr.final, buf', mr') ∧
      buf ++ mr.remaining = buf' ++ mr'.remaining ∧
      ∀ n, P.scanAll s buf mr.bytes mr.final = .ok n →
        buf ++ mr.bytes = buf' ++ mr'.bytes ∧ mr'.final = mr.final ∧ n ≤ buf'.length := by
  induction fuel generalizing s buf mr with
  | zero => omega
  | succ fuel ih =>
    obtain ⟨hrem, hbytes, hfin, hsz, herr⟩ := stackReader.Read_stack mr (P.room buf.length + 1)
    generalize hres : mr.Read (P.room buf.length + 1) = res at hrem hbytes hfin hsz herr
    obtain ⟨⟨data, err⟩, mr1⟩ := res
    simp only at hrem hbytes hfin hsz herr
    have hall : P.scanAll s buf mr.bytes mr.final =
        match P.scan s buf.length data with
        | .needMore s' => P.scanAll s' (buf ++ data) mr1.bytes mr.final
        | .value n => .ok n
        | .error e => .error e := by
      simp only [ValueParser.scanAll, hbytes, ValueParser.scan_append]
      cases P.scan s buf.length data with
      | needMore s' => simp [List.length_append, List.append_assoc]
      | value n => rfl
      | error e => rfl
    rw [hall]
    cases hscan : P.scan s buf.length data with
    | value n =>
      refine ⟨buf ++ data, mr1, ?_, ?_, ?_⟩
      · simp [ValueParser.readValue, hres, hscan]
      · simp [hrem]
      · intro m hm
        simp only [Except.ok.injEq] at hm
        subst hm
        have := P.scan_value_bounds s buf.length data n hscan
        refine ⟨by simp [hbytes], hfin, ?_⟩
        simp only [List.length_append]
        omega
    | error e =>
      refine ⟨buf ++ data, mr1, ?_, by simp [hrem], ?_⟩
      · simp [ValueParser.readValue, hres, hscan]
      · intro m hm
        simp at hm
    | needMore s' =>
      simp only
      cases err with
      | none =>
        obtain ⟨buf', mr', h1, h2, h3⟩ := ih s' (buf ++ data) mr1 (by
          have := hsz rfl (by omega)
          omega)
        refine ⟨buf', mr', ?_, ?_, ?_⟩
        · simp only [ValueParser.readValue, hres, hscan]
          rw [h1, hfin]
        · rw [← h2, hrem]
          simp
        · intro m hm
          rw [← hfin] at hm
          obtain ⟨g1, g2, g3⟩ := h3 m hm
          refine ⟨?_, by rw [g2, hfin], g3⟩
          rw [← g1, hbytes]
          simp
      | some e =>
        obtain ⟨he, hb1, _⟩ := herr e rfl
        have hsc : P.scanAll s' (buf ++ data) mr1.bytes mr.final =
            P.endOfInput s' (buf ++ data) mr.final := by
          simp [ValueParser.scanAll, hb1, ValueParser.scan]
        rw [hsc]
        refine ⟨buf ++ data, mr1, ?_, by simp [hrem], ?_⟩
        · simp only [ValueParser.readValue, hres, hscan, ValueParser.endOfInput, ← he]
          by_cases hE : e = .EOF
          · simp only [hE, if_true]
            by_cases hok : P.eofOk s' = true
            · simp [hok]
            · simp only [hok, if_false]
              by_cases hns : nonSpace (buf ++ data) = true
              · simp [hns]
              · simp [hns]
          · simp [hE]
        · intro m hm
          refine ⟨by simp [hbytes], hfin, ?_⟩
          simp only [ValueParser.endOfInput] at hm
          split at hm
          · split at hm
            · simp only [Except.ok.injEq] at hm
              omega
            · split at hm <;> simp at hm
          · simp at hm

theorem stackReader.Insert_bytesReader (mr : stackReader) (s : List Byte) :
    (mr.Insert (.bytesReader s)).bytes = s ++ mr.bytes ∧
    (mr.Insert (.bytesReader s)).remaining = s ++ mr.remaining ∧
    (mr.Insert (.bytesReader s)).final = mr.final := by
  cases s with
  | nil => simp [stackReader.Insert, isEmpty]
  | cons b s =>
    simp [stackReader.Insert, isEmpty, stackReader.bytes, stackReader.remaining,
      stackReader.final, logicalBytes, logicalFinal, Reader.final, Reader.rest]

theorem ValueParser.Decode_spec {S V : Type} (P : ValueParser S V) (mr : stackReader) :
    (∃ e mr', P.scanAll P.init [] mr.bytes mr.final = .error e ∧
        P.Decode mr = some (.error e, [], mr')) ∨
    (∃ n buf mr', P.scanAll P.init [] mr.bytes mr.final = .ok n ∧
        P.readValue (mr.size + 1) P.init [] mr = some (.ok n, buf, mr') ∧
        P.Decode mr = some (P.unmarshal (mr.bytes.take n), buf.drop n, mr') ∧
        n ≤ buf.length ∧ buf.take n = mr.bytes.take n ∧
        buf.drop n ++ mr'.bytes = mr.bytes.drop n ∧
        mr.remaining = buf.take n ++ (buf.drop n ++ mr'.remaining) ∧ mr'.final = mr.final) := by
  obtain ⟨buf, mr', h, hrem, hok⟩ := P.readValue_spec (mr.size + 1) P.init [] mr (by omega)
  cases hs : P.scanAll P.init [] mr.bytes mr.final with
  | error e =>
    refine Or.inl ⟨e, mr', rfl, ?_⟩
    simp [ValueParser.Decode, h, hs]
  | ok n =>
    obtain ⟨hb, hf, hn⟩ := hok n hs
    simp only [List.nil_append] at hb hrem
    have htake : buf.take n = mr.bytes.take n := by
      rw [hb, List.take_append_of_le_length hn]
    refine Or.inr ⟨n, buf, mr', rfl, by rw [h, hs], ?_, hn, htake, ?_, ?_, hf⟩
    · simp [ValueParser.Decode, h, hs, htake]
    · rw [hb, List.drop_append_of_le_length hn]
    · rw [hrem, ← List.append_assoc, List.take_append_drop]

theorem Decoder.decodeItem_view {S V : Type} (P : ValueParser S V) (d : Decoder)
    (mr : stackReader) (hd : d.state = .after) :
    ∃ d', d.decodeItem P mr = some ((View.decodeItem P d.err mr.bytes mr.final).1, d') ∧
      d'.view = (View.decodeItem P d.err mr.bytes mr.final).2 := by
  rcases P.Decode_spec mr with ⟨e, mr', hs, h⟩ | ⟨n, buf, mr', hs, _, h, _, _, hdrop, _, hf⟩
  · by_cases hE : e = .EOF
    · refine ⟨(d.breaks mr' (some .ErrUnexpectedEOF)).2, ?_, ?_⟩
      · simp only [Decoder.decodeItem, h, hE, if_true, Decoder.breaks]
        simp [View.decodeItem, hs, hE, View.breaks]
      · simp [View.decodeItem, hs, hE, View.breaks, Decoder.view, Decoder.breaks]
    · refine ⟨(d.breaks mr' (some e)).2, ?_, ?_⟩
      · simp only [Decoder.decodeItem, h, hE, if_false, Decoder.breaks]
        simp [View.decodeItem, hs, hE, View.breaks]
      · simp [View.decodeItem, hs, hE, View.breaks, Decoder.view, Decoder.breaks]
  · cases hu : P.unmarshal (mr.bytes.take n) with
    | error e =>
      rw [hu] at h
      by_cases hE : e = .EOF
      · refine ⟨(d.breaks mr' (some .ErrUnexpectedEOF)).2, ?_, ?_⟩
        · simp only [Decoder.decodeItem, h, hE, if_true, Decoder.breaks]
          simp [View.decodeItem, hs, hu, hE, View.breaks]
        · simp [View.decodeItem, hs, hu, hE, View.breaks, Decoder.view, Decoder.breaks]
      · refine ⟨(d.breaks mr' (some e)).2, ?_, ?_⟩
        · simp only [Decoder.decodeItem, h, hE, if_false, Decoder.breaks]
          simp [View.decodeItem, hs, hu, hE, View.breaks]
        · simp [View.decodeItem, hs, hu, hE, View.breaks, Decoder.view, Decoder.breaks]
    | ok v =>
      rw [hu] at h
      obtain ⟨hb, _, hfin⟩ := stackReader.Insert_bytesReader mr' (buf.drop n)
      refine ⟨{ d with r := mr'.Insert (.bytesReader (buf.drop n)) }, ?_, ?_⟩
      · simp only [Decoder.decodeItem, h]
        simp [View.decodeItem, hs, hu]
      · simp [View.decodeItem, hs, hu, Decoder.view, hd, hb, hfin, hdrop, hf]

theorem Decoder.readNonWhitespace_spec (d : Decoder) :
    (∃ w c mr', d.readNonWhitespace = some ((c, none), mr') ∧
        (∀ x ∈ w, isWhitespace x = true) ∧ isWhitespace c = false ∧
        d.r.bytes = w ++ c :: mr'.bytes ∧ d.r.remaining = w ++ c :: mr'.remaining ∧
        mr'.final = d.r.final ∧ d.r.bytes.dropWhile isWhitespace = c :: mr'.bytes) ∨
    (∃ mr', d.readNonWhitespace = some ((0, some d.r.final), mr') ∧
        (∀ x ∈ d.r.bytes, isWhitespace x = true) ∧
        d.r.bytes.dropWhile isWhitespace = []) := by
  rcases readNonWhitespaceLoop_spec (d.r.size + 1) d.r (by omega) with
    ⟨w, c, mr', h, hw, hc, hb, hr, hf, _⟩ | ⟨mr', h, hw, _, _⟩
  · refine Or.inl ⟨w, c, mr', h, hw, hc, hb, hr, hf, ?_⟩
    rw [hb, dropWhile_whitespace hw]
    simp [List.dropWhile_cons, hc]
  · refine Or.inr ⟨mr', h, hw, ?_⟩
    have := dropWhile_whitespace hw []
    simpa using this

theorem Decoder.Decode_view {S V : Type} (P : ValueParser S V) (d : Decoder) :
    ∃ d', d.Decode P = some ((View.Decode P d.view).1, d') ∧
      d'.view = (View.Decode P d.view).2 := by
  cases hst : d.state with
  | broken =>
    refine ⟨d, ?_, ?_⟩
    · simp [Decoder.Decode, hst, View.Decode, Decoder.view]
    · simp [View.Decode, Decoder.view, hst]
  | start =>
    have hv : d.view = ⟨.start, d.err, d.r.bytes, d.r.final⟩ := by simp [Decoder.view, hst]
    rcases d.readNonWhitespace_spec with ⟨w, c, mr', h, _, _, _, _, hf, hdw⟩ | ⟨mr', h, _, hdw⟩
    · by_cases hc : c = 0x5B
      · obtain ⟨d', h1, h2⟩ := Decoder.decodeItem_view P { d with state := .after } mr' rfl
        refine ⟨d', ?_, ?_⟩
        · simp only [Decoder.Decode, hst, h, hc]
          simp only [hc] at hdw
          simpa [hv, View.Decode, hdw, hf] using h1
        · simp only [hc] at hdw
          simpa [hv, View.Decode, hdw, hf] using h2
      · refine ⟨(d.breaks mr' (some (.ErrNotArray c))).2, ?_, ?_⟩
        · simp only [Decoder.Decode, hst, h, Decoder.breaks]
          simp [hc, hv, View.Decode, hdw, View.breaks]
        · rw [hv]
          simp [View.Decode, hdw, hc, View.breaks, Decoder.view, Decoder.breaks]
    · refine ⟨(d.breaks mr' (some d.r.final)).2, ?_, ?_⟩
      · simp only [Decoder.Decode, hst, h, Decoder.breaks]
        simp [hv, View.Decode, hdw, View.breaks]
      · rw [hv]
        simp [View.Decode, hdw, View.breaks, Decoder.view, Decoder.breaks]
  | after =>
    have hv : d.view = ⟨.after, d.err, d.r.bytes, d.r.final⟩ := by simp [Decoder.view, hst]
    rcases d.readNonWhitespace_spec with ⟨w, c, mr', h, _, _, _, _, hf, hdw⟩ | ⟨mr', h, _, hdw⟩
    · by_cases hc : c = 0x2C
      · obtain ⟨d', h1, h2⟩ := Decoder.decodeItem_view P d mr' hst
        refine ⟨d', ?_, ?_⟩
        · simp only [Decoder.Decode, hst, h, hc]
          simp only [hc] at hdw
          simpa [hv, View.Decode, hdw, hf] using h1
        · simp only [hc] at hdw
          simpa [hv, View.Decode, hdw, hf] using h2
      · by_cases hc2 : c = 0x5D
        · refine ⟨(d.breaks mr' (some .EOF)).2, ?_, ?_⟩
          · simp only [Decoder.Decode, hst, h, Decoder.breaks]
            simp [hc2, hv, View.Decode, hdw, View.breaks]
          · rw [hv]
            simp [View.Decode, hdw, hc2, View.breaks, Decoder.view, Decoder.breaks]
        · refine ⟨(d.breaks mr' (some (.ErrNotCommaSeparated c))).2, ?_, ?_⟩
          · simp only [Decoder.Decode, hst, h, Decoder.breaks]
            simp [hc, hc2, hv, View.Decode, hdw, View.breaks]
          · rw [hv]
            simp [View.Decode, hdw, hc, hc2, View.breaks, Decoder.view, Decoder.breaks]
    · by_cases hE : d.r.final = .EOF
      · refine ⟨(d.breaks mr' (some .ErrUnexpectedEOF)).2, ?_, ?_⟩
        · simp only [Decoder.Decode, hst, h, Decoder.breaks]
          simp [hE, hv, View.Decode, hdw, View.breaks]
        · rw [hv]
          simp [View.Decode, hdw, hE, View.breaks, Decoder.view, Decoder.breaks]
      · refine ⟨(d.breaks mr' (some d.r.final)).2, ?_, ?_⟩
        · simp only [Decoder.Decode, hst, h, Decoder.breaks]
          simp [hE, hv, View.Decode, hdw, View.breaks]
        · rw [hv]
          simp [View.Decode, hdw, hE, View.breaks, Decoder.view, Decoder.breaks]

theorem Decoder.DecodeN_view {S V : Type} (P : ValueParser S V) (n : Nat) (d : Decoder) :
    ∃ d', d.DecodeN P n = some ((View.DecodeN P n d.view).1, d') ∧
      d'.view = (View.DecodeN P n d.view).2 := by
  induction n generalizing d with
  | zero => exact ⟨d, rfl, rfl⟩
  | succ n ih =>
    obtain ⟨d1, h1, h2⟩ := d.Decode_view P
    obtain ⟨d2, h3, h4⟩ := ih d1
    refine ⟨d2, ?_, ?_⟩
    · simp only [Decoder.DecodeN, h1, h3, View.DecodeN, h2]
    · simp only [View.DecodeN, ← h2, h4]

/-- Every `Decode` call returns: the loop bounds of the embedding are never reached. -/
theorem Decoder.Decode_returns {S V : Type} (P : ValueParser S V) (d : Decoder) :
    ∃ res d', d.Decode P = some (res, d') := by
  obtain ⟨d', h, _⟩ := d.Decode_view P
  exact ⟨_, d', h⟩

/-! The decoder. -/

theorem NewDecoder_view (r : Reader) : (NewDecoder r).view = ⟨.start, none, r.rest, r.final⟩ := by
  cases r with
  | bytesReader s =>
    simp [NewDecoder, Decoder.view, bufioNewReader, stackReader.bytes, stackReader.final,
      logicalBytes, logicalFinal, Reader.final, Reader.rest]
  | stream cs eager final =>
    by_cases h : final = .EOF <;>
    simp [NewDecoder, Decoder.view, bufioNewReader, stackReader.bytes, stackReader.final,
      logicalBytes, logicalFinal, Reader.final, Reader.rest, h]

theorem Decoder.DecodeN_broken {S V : Type} (P : ValueParser S V) (d : Decoder)
    (h : d.state = .broken) (n : Nat) :
    d.DecodeN P n = some (List.replicate n (d.err, none), d) := by
  induction n with
  | zero => rfl
  | succ n ih =>
    have h1 : d.Decode P = some ((d.err, none), d) := by simp [Decoder.Decode, h]
    simp [Decoder.DecodeN, h1, ih, List.replicate_succ]

theorem Decoder.decodeItem_error {S V : Type} (P : ValueParser S V) (d d' : Decoder)
    (mr : stackReader) (e : Err) (v : Option V)
    (h : d.decodeItem P mr = some ((some e, v), d')) :
    d'.state = .broken ∧ d'.err = some e ∧ v = none := by
  simp only [Decoder.decodeItem] at h
  split at h
  · simp at h
  · split at h <;>
    · simp only [Decoder.breaks, Option.some.injEq, Prod.mk.injEq] at h
      obtain ⟨⟨h1, h2⟩, h3⟩ := h
      subst h3
      exact ⟨rfl, by simpa using h1, h2.symm⟩
  · simp at h

theorem Decoder.Decode_error {S V : Type} (P : ValueParser S V) (d d' : Decoder) (e : Err)
    (v : Option V) (h : d.Decode P = some ((some e, v), d')) :
    d'.state = .broken ∧ d'.err = some e ∧ v = none := by
  simp only [Decoder.Decode] at h
  split at h
  · rename_i hst
    simp only [Option.some.injEq, Prod.mk.injEq] at h
    obtain ⟨⟨h1, h2⟩, h3⟩ := h
    subst h3
    exact ⟨hst, h1, h2.symm⟩
  · split at h
    · simp at h
    · split at h
      · simp only [Decoder.breaks, Option.some.injEq, Prod.mk.injEq] at h
        obtain ⟨⟨h1, h2⟩, h3⟩ := h
        subst h3
        exact ⟨rfl, by simpa using h1, h2.symm⟩
      · split at h
        · exact Decoder.decodeItem_error P _ d' _ e v h
        · simp only [Decoder.breaks, Option.some.injEq, Prod.mk.injEq] at h
          obtain ⟨⟨h1, h2⟩, h3⟩ := h
          subst h3
          exact ⟨rfl, by simpa using h1, h2.symm⟩
  · split at h
    · simp at h
    · split at h
      · simp only [Decoder.breaks, Option.some.injEq, Prod.mk.injEq] at h
        obtain ⟨⟨h1, h2⟩, h3⟩ := h
        subst h3
        exact ⟨rfl, by simpa using h1, h2.symm⟩
      · split at h
        · simp only [Decoder.breaks, Option.some.injEq, Prod.mk.injEq] at h
          obtain ⟨⟨h1, h2⟩, h3⟩ := h
          subst h3
          exact ⟨rfl, by simpa using h1, h2.symm⟩
        · split at h
          · exact Decoder.decodeItem_error P _ d' _ e v h
          · split at h <;>
            · simp only [Decoder.breaks, Option.some.injEq, Prod.mk.injEq] at h
              obtain ⟨⟨h1, h2⟩, h3⟩ := h
              subst h3
              exact ⟨rfl, by simpa using h1, h2.symm⟩

/-- C4: once a `Decode` call has returned a non-nil error `e`, the next call and
every later call return the same `e` and hand back the very same decoder: the
reader stack is untouched, nothing is read. -/
theorem Decode_terminal_sticky {S V : Type} (P : ValueParser S V) (d d' : Decoder) (e : Err)
    (v : Option V) (h : d.Decode P = some ((some e, v), d')) :
    d'.Decode P = some ((some e, none), d') ∧
    ∀ n, d'.DecodeN P n = some (List.replicate n (some e, none), d') := by
  obtain ⟨hst, herr, _⟩ := Decoder.Decode_error P d d' e v h
  refine ⟨by simp [Decoder.Decode, hst, herr], fun n => ?_⟩
  rw [Decoder.DecodeN_broken P d' hst n, herr]

/-- Witness of C4 on the stream `x`. -/
theorem Decode_terminal_sticky_witness :
    (NewDecoder (.bytesReader [0x78])).Decode sampleParser =
        some ((some (.ErrNotArray 0x78), none), notArrayBroken) ∧
    (notArrayBroken.Decode sampleParser = some ((some (.ErrNotArray 0x78), none), notArrayBroken) ∧
      ∀ n, notArrayBroken.DecodeN sampleParser n =
        some (List.replicate n (some (.ErrNotArray 0x78), none), notArrayBroken)) :=
  ⟨by decide, Decode_terminal_sticky sampleParser (NewDecoder (.bytesReader [0x78]))
    notArrayBroken (.ErrNotArray 0x78) none (by decide)⟩

theorem NewDecoder_bytes (r : Reader) :
    (NewDecoder r).r.bytes = r.rest ∧ (NewDecoder r).r.final = r.final := by
  have h := NewDecoder_view r
  simp only [Decoder.view, NewDecoder, reduceCtorEq, if_false, View.mk.injEq, true_and] at h
  exact h

theorem Decoder.decodeItem_value {S V : Type} (P : ValueParser S V) (d d' : Decoder)
    (mr : stackReader) (v : V) (h : d.decodeItem P mr = some ((none, some v), d')) :
    ∃ n buf mr', P.readValue (mr.size + 1) P.init [] mr = some (.ok n, buf, mr') ∧
      n ≤ buf.length ∧ P.unmarshal (buf.take n) = .ok v ∧
      d'.r = mr'.Insert (.bytesReader (buf.drop n)) ∧
      d'.r.remaining = buf.drop n ++ mr'.remaining ∧
      mr.remaining = buf.take n ++ d'.r.remaining := by
  rcases P.Decode_spec mr with ⟨e, mr', _, hD⟩ | ⟨n, buf, mr', _, hrun, hD, hn, htake, _, hrem, _⟩
  · simp only [Decoder.decodeItem, hD] at h
    split at h <;> simp [Decoder.breaks] at h
  · simp only [Decoder.decodeItem, hD] at h
    cases hu : P.unmarshal (mr.bytes.take n) with
    | error e =>
      rw [hu] at h
      simp only at h
      split at h <;> simp [Decoder.breaks] at h
    | ok v' =>
      rw [hu] at h
      simp only [Option.some.injEq, Prod.mk.injEq, true_and] at h
      obtain ⟨hv, hd'⟩ := h
      subst hv
      subst hd'
      obtain ⟨_, hi, _⟩ := stackReader.Insert_bytesReader mr' (buf.drop n)
      refine ⟨n, buf, mr', hrun, hn, by rw [htake, hu], rfl, hi, ?_⟩
      simp only
      rw [hi]
      exact hrem

/-- C1: when `Decode` returns nil with a value, the framing read left a stack `mr`,
the value parser read `buf` from it, of which the first `n` bytes are the value
and the rest is over-read; the surplus is inserted on top of the stack, so the
bytes still to be read are the over-read bytes followed by the bytes not read
yet, and the stream before the item parse is the value's bytes followed by the
stream afterwards. -/
theorem Decode_reinjects_surplus {S V : Type} (P : ValueParser S V) (d d' : Decoder) (v : V)
    (h : d.Decode P = some ((none, some v), d')) :
    ∃ c mr n buf mr', d.readNonWhitespace = some ((c, none), mr) ∧
      P.readValue (mr.size + 1) P.init [] mr = some (.ok n, buf, mr') ∧
      n ≤ buf.length ∧ P.unmarshal (buf.take n) = .ok v ∧
      d'.r = mr'.Insert (.bytesReader (buf.drop n)) ∧
      d'.r.remaining = buf.drop n ++ mr'.remaining ∧
      mr.remaining = buf.take n ++ d'.r.remaining := by
  simp only [Decoder.Decode] at h
  split at h
  · simp at h
  · split at h
    · simp at h
    · rename_i c err mr hrn
      split at h
      · simp [Decoder.breaks] at h
      · rename_i herr
        have herr' : err = none := by simpa using herr
        subst herr'
        split at h
        · obtain ⟨n, buf, mr', h1⟩ := Decoder.decodeItem_value P _ d' mr v h
          exact ⟨c, mr, n, buf, mr', hrn, h1⟩
        · simp [Decoder.breaks] at h
  · split at h
    · simp at h
    · rename_i c err mr hrn
      split at h
      · simp [Decoder.breaks] at h
      · split at h
        · simp [Decoder.breaks] at h
        · rename_i _ herr
          have herr' : err = none := by simpa using herr
          subst herr'
          split at h
          · obtain ⟨n, buf, mr', h1⟩ := Decoder.decodeItem_value P _ d' mr v h
            exact ⟨c, mr, n, buf, mr', hrn, h1⟩
          · split at h <;> simp [Decoder.breaks] at h

/-- Witness of C1: the first `Decode` on `[{"X":1};{"X":2}]` read in one block. -/
theorem Decode_reinjects_surplus_witness :
    (NewDecoder (.stream [semicolonStream] false .EOF)).Decode sampleParser =
        some ((none, some 1), semicolonAfterFirst) ∧
    ∃ c mr n buf mr',
      (NewDecoder (.stream [semicolonStream] false .EOF)).readNonWhitespace =
        some ((c, none), mr) ∧
      sampleParser.readValue (mr.size + 1) sampleParser.init [] mr = some (.ok n, buf, mr') ∧
      n ≤ buf.length ∧ sampleParser.unmarshal (buf.take n) = .ok 1 ∧
      semicolonAfterFirst.r = mr'.Insert (.bytesReader (buf.drop n)) ∧
      semicolonAfterFirst.r.remaining = buf.drop n ++ mr'.remaining ∧
      mr.remaining = buf.take n ++ semicolonAfterFirst.r.remaining :=
  ⟨by decide, Decode_reinjects_surplus sampleParser _ _ _ (by decide)⟩

theorem blank_iff (w : List Byte) : blank w = true ↔ ∀ c ∈ w, isWhitespace c = true := by
  simp [blank, List.all_eq_true]

theorem View.decodeItem_not_EOF {S V : Type} (P : ValueParser S V) (err : Option Err)
    (bs : List Byte) (fin : Err) : (View.decodeItem P err bs fin).1.1 ≠ some .EOF := by
  simp only [View.decodeItem]
  split
  · rename_i e _
    by_cases h : e = .EOF <;> simp [View.breaks, h]
  · split
    · rename_i e _
      by_cases h : e = .EOF <;> simp [View.breaks, h]
    · simp

/-- C3: on the stream `[]` the first `Decode` of a fresh decoder does return, but
never with `io.EOF`: after `[` the code hands the stream to the value parser, so
the result is nil or the parser's error; with the sample parser it is the syntax
error for `]`. -/
theorem Decode_empty_array_not_EOF :
    (∀ (S V : Type) (P : ValueParser S V), ∃ res d',
      (NewDecoder (.bytesReader [0x5B, 0x5D])).Decode P = some (res, d') ∧ res.1 ≠ some .EOF) ∧
    ((NewDecoder (.bytesReader [0x5B, 0x5D])).Decode sampleParser).map (fun x => x.1) =
      some (some (.other 1), none) := by
  refine ⟨fun S V P => ?_, by decide⟩
  obtain ⟨d', h, _⟩ := (NewDecoder (.bytesReader [0x5B, 0x5D])).Decode_view P
  refine ⟨_, d', h, ?_⟩
  rw [NewDecoder_view]
  have : (View.Decode P ⟨.start, none, [0x5B, 0x5D], .EOF⟩).1 =
      (View.decodeItem P none [0x5D] .EOF).1 := by
    simp [View.Decode, List.dropWhile, isWhitespace]
  simp only [Reader.rest, Reader.final]
  rw [this]
  exact View.decodeItem_not_EOF P none [0x5D] .EOF

/-- C5: when the stream holds only whitespace and then ends with `io.EOF`, the
first `Decode` of a fresh decoder returns `io.EOF` itself, the end-of-array
result, not `io.ErrUnexpectedEOF`: in state `start` the read error is passed to
`breaks` as it is. -/
theorem Decode_start_end_of_stream {S V : Type} (P : ValueParser S V) (r : Reader)
    (hw : blank r.rest = true) (hfin : r.final = .EOF) :
    ∃ d', (NewDecoder r).Decode P = some ((some .EOF, none), d') ∧
      d'.state = .broken ∧ d'.err = some .EOF := by
  obtain ⟨d', h, hv⟩ := (NewDecoder r).Decode_view P
  rw [NewDecoder_view] at h hv
  have hd : r.rest.dropWhile isWhitespace = [] := by
    have := dropWhile_whitespace ((blank_iff _).mp hw) []
    simpa using this
  have hres : View.Decode P ⟨.start, none, r.rest, r.final⟩ = View.breaks (some .EOF) := by
    simp [View.Decode, hd, hfin]
  rw [hres] at h hv
  refine ⟨d', h, ?_⟩
  exact (Decoder.Decode_error P _ d' .EOF none h).imp_right And.left

/-- Witness of C5: the empty stream. -/
theorem Decode_start_end_of_stream_witness :
    (blank (Reader.bytesReader []).rest = true ∧ (Reader.bytesReader []).final = .EOF) ∧
    ∃ d', (NewDecoder (.bytesReader [])).Decode sampleParser = some ((some .EOF, none), d') ∧
      d'.state = .broken ∧ d'.err = some .EOF :=
  ⟨⟨by decide, by decide⟩,
    Decode_start_end_of_stream sampleParser (.bytesReader []) (by decide) (by decide)⟩

theorem Decoder.readNonWhitespace_byte (d : Decoder) (w : List Byte) (c : Byte)
    (rest : List Byte) (hb : d.r.bytes = w ++ c :: rest) (hw : blank w = true)
    (hc : isWhitespace c = false) :
    ∃ mr, d.readNonWhitespace = some ((c, none), mr) ∧ mr.bytes = rest ∧
      mr.final = d.r.final := by
  have hd : d.r.bytes.dropWhile isWhitespace = c :: rest := by
    rw [hb, dropWhile_whitespace ((blank_iff _).mp hw)]
    simp [List.dropWhile_cons, hc]
  rcases d.readNonWhitespace_spec with ⟨_, c', mr', h, _, _, _, _, hf, hdw⟩ | ⟨_, _, _, hdw⟩
  · rw [hd] at hdw
    simp only [List.cons.injEq] at hdw
    obtain ⟨h1, h2⟩ := hdw
    subst h1
    exact ⟨mr', h, h2.symm, hf⟩
  · rw [hd] at hdw
    simp at hdw

/-- C6: when the first non-whitespace byte `c` of the stream is not `[`, the first
`Decode` of a fresh decoder returns `ErrNotArray` with `Bad = c`; whatever the
value parser, the decoder is left broken with the stack exactly as the framing
read left it (the parser read nothing), and every run of calls returns only
that error, never a value. -/
theorem Decode_not_array (r : Reader) (w : List Byte) (c : Byte) (rest : List Byte)
    (hr : r.rest = w ++ c :: rest) (hw : blank w = true) (hc : isWhitespace c = false)
    (hne : c ≠ 0x5B) :
    ∃ mr, (NewDecoder r).readNonWhitespace = some ((c, none), mr) ∧
      ∀ (S V : Type) (P : ValueParser S V),
        (NewDecoder r).Decode P =
          some ((some (.ErrNotArray c), none), ⟨.broken, mr, some (.ErrNotArray c)⟩) ∧
        ∀ n, (NewDecoder r).DecodeN P (n + 1) =
          some (List.replicate (n + 1) (some (.ErrNotArray c), (none : Option V)),
            ⟨.broken, mr, some (.ErrNotArray c)⟩) := by
  obtain ⟨mr, h, _, _⟩ := (NewDecoder r).readNonWhitespace_byte w c rest
    (by rw [(NewDecoder_bytes r).1, hr]) hw hc
  refine ⟨mr, h, fun S V P => ?_⟩
  have h1 : (NewDecoder r).Decode P =
      some ((some (.ErrNotArray c), none), ⟨.broken, mr, some (.ErrNotArray c)⟩) := by
    simp [Decoder.Decode, NewDecoder, Decoder.breaks, hne] at h ⊢
    simp [h, hne]
  refine ⟨h1, fun n => ?_⟩
  simp only [Decoder.DecodeN, h1]
  rw [Decoder.DecodeN_broken P _ rfl n]
  simp [List.replicate_succ]

/-- Witness of C6 on the stream ` x]`. -/
theorem Decode_not_array_witness :
    (Reader.bytesReader [0x20, 0x78, 0x5D]).rest = [0x20] ++ 0x78 :: [0x5D] ∧
    ∃ mr, (NewDecoder (.bytesReader [0x20, 0x78, 0x5D])).readNonWhitespace =
        some ((0x78, none), mr) ∧
      ∀ (S V : Type) (P : ValueParser S V),
        (NewDecoder (.bytesReader [0x20, 0x78, 0x5D])).Decode P =
          some ((some (.ErrNotArray 0x78), none), ⟨.broken, mr, some (.ErrNotArray 0x78)⟩) ∧
        ∀ n, (NewDecoder (.bytesReader [0x20, 0x78, 0x5D])).DecodeN P (n + 1) =
          some (List.replicate (n + 1) (some (.ErrNotArray 0x78), (none : Option V)),
            ⟨.broken, mr, some (.ErrNotArray 0x78)⟩) :=
  ⟨rfl, Decode_not_array (.bytesReader [0x20, 0x78, 0x5D]) [0x20] 0x78 [0x5D] rfl
    (by decide) (by decide) (by decide)⟩

/-- C8: a decoder in state `after` whose next non-whitespace byte `c` is neither
`,` nor `]` returns `ErrNotCommaSeparated` with `Bad = c`; whatever the value
parser, the decoder is left broken with the stack exactly as the framing read
left it (the parser read nothing). -/
theorem Decode_not_comma_separated (d : Decoder) (w : List Byte) (c : Byte) (rest : List Byte)
    (hst : d.state = .after) (hb : d.r.bytes = w ++ c :: rest) (hw : blank w = true)
    (hc : isWhitespace c = false) (h1 : c ≠ 0x2C) (h2 : c ≠ 0x5D) :
    ∃ mr, d.readNonWhitespace = some ((c, none), mr) ∧
      ∀ (S V : Type) (P : ValueParser S V),
        d.Decode P = some ((some (.ErrNotCommaSeparated c), (none : Option V)),
          ⟨.broken, mr, some (.ErrNotCommaSeparated c)⟩) := by
  obtain ⟨mr, h, _, _⟩ := d.readNonWhitespace_byte w c rest hb hw hc
  refine ⟨mr, h, fun S V P => ?_⟩
  simp [Decoder.Decode, hst, h, Decoder.breaks, h1, h2]

/-- Witness of C8: `[{"X":1};{"X":2}]` gives one successful decode and then
`ErrNotCommaSeparated` with `Bad = ';'`. -/
theorem Decode_not_comma_separated_witness :
    (NewDecoder (.stream [semicolonStream] false .EOF)).Decode sampleParser =
        some ((none, some 1), semicolonAfterFirst) ∧
    ∃ mr, semicolonAfterFirst.readNonWhitespace = some ((0x3B, none), mr) ∧
      ∀ (S V : Type) (P : ValueParser S V),
        semicolonAfterFirst.Decode P = some ((some (.ErrNotCommaSeparated 0x3B), (none : Option V)),
          ⟨.broken, mr, some (.ErrNotCommaSeparated 0x3B)⟩) :=
  ⟨by decide, Decode_not_comma_separated semicolonAfterFirst [] 0x3B
    [0x7B, 0x22, 0x58, 0x22, 0x3A, 0x32, 0x7D, 0x5D] (by decide) (by decide) (by decide)
    (by decide) (by decide) (by decide)⟩

theorem flatten_map_single (bs : List Byte) : (bs.map fun b => [b]).flatten = bs := by
  induction bs with
  | nil => rfl
  | cons b bs ih => simp [ih]

/-- C9: the results of any number of `Decode` calls are the same whether the
underlying reader delivers the bytes in the chunks `chunks`, as one contiguous
block, one byte per read, or from an in-memory reader; in each case the calls
return, and the `eager` flags (data returned together with the final error) do
not matter either. -/
theorem Decode_fragmentation_independent {S V : Type} (P : ValueParser S V)
    (chunks : List (List Byte)) (e1 e2 e3 : Bool) (fin : Err) (n : Nat) :
    ∃ results : List (Option Err × Option V),
      ((NewDecoder (.stream chunks e1 fin)).DecodeN P n).map (fun x => x.1) = some results ∧
      ((NewDecoder (.stream [chunks.flatten] e2 fin)).DecodeN P n).map (fun x => x.1) =
        some results ∧
      ((NewDecoder (.stream (chunks.flatten.map fun b => [b]) e3 fin)).DecodeN P n).map
        (fun x => x.1) = some results ∧
      (fin = .EOF →
        ((NewDecoder (.bytesReader chunks.flatten)).DecodeN P n).map (fun x => x.1) =
          some results) := by
  refine ⟨(View.DecodeN P n ⟨.start, none, chunks.flatten, fin⟩).1, ?_, ?_, ?_, ?_⟩
  · obtain ⟨d', h, _⟩ := (NewDecoder (.stream chunks e1 fin)).DecodeN_view P n
    rw [h, NewDecoder_view]
    rfl
  · obtain ⟨d', h, _⟩ := (NewDecoder (.stream [chunks.flatten] e2 fin)).DecodeN_view P n
    rw [h, NewDecoder_view]
    simp [Reader.rest, Reader.final]
  · obtain ⟨d', h, _⟩ :=
      (NewDecoder (.stream (chunks.flatten.map fun b => [b]) e3 fin)).DecodeN_view P n
    rw [h, NewDecoder_view]
    simp only [Reader.rest, Reader.final, flatten_map_single, Option.map_some']
  · intro hfin
    obtain ⟨d', h, _⟩ := (NewDecoder (.bytesReader chunks.flatten)).DecodeN_view P n
    rw [h, NewDecoder_view]
    simp [Reader.rest, Reader.final, hfin]

/-! Arrays of items. -/

theorem whitespace_delimiter {c : Byte} (h : isWhitespace c = true) : c ∈ delimiters := by
  simp only [isWhitespace, Bool.or_eq_true, beq_iff_eq] at h
  rcases h with ((h | h) | h) | h <;> subst h <;> decide

theorem ValueParser.delimited_step {S V : Type} (P : ValueParser S V) (s : S) (c : Byte)
    (h : P.delimited s = true) (hc : c ∈ delimiters) : P.step s c = .endBefore := by
  simp only [ValueParser.delimited, List.all_eq_true] at h
  have := h c hc
  split at this
  · assumption
  · simp at this

theorem ValueParser.scanAll_valueOf {S V : Type} (P : ValueParser S V) (e rest : List Byte)
    (fin : Err) (v : V) (hv : P.valueOf e = some v) (hrest : Follows rest fin) :
    P.scanAll P.init [] (e ++ rest) fin = .ok e.length ∧ P.unmarshal e = .ok v := by
  simp only [ValueParser.valueOf] at hv
  simp only [ValueParser.scanAll, List.length_nil, ValueParser.scan_append, List.nil_append]
  cases hs : P.scan P.init 0 e with
  | value n =>
    rw [hs] at hv
    simp only at hv ⊢
    split at hv
    · rename_i hn
      subst hn
      refine ⟨rfl, ?_⟩
      split at hv
      · rename_i v' hu
        simp only [Option.some.injEq] at hv
        rw [hu, hv]
      · simp at hv
    · simp at hv
  | error e' =>
    rw [hs] at hv
    simp at hv
  | needMore s =>
    rw [hs] at hv
    simp only at hv ⊢
    split at hv
    · rename_i hcond
      obtain ⟨hdel, hok⟩ := hcond
      have hu : P.unmarshal e = .ok v := by
        split at hv
        · rename_i v' hu
          simp only [Option.some.injEq] at hv
          rw [hu, hv]
        · simp at hv
      refine ⟨?_, hu⟩
      rcases hrest with ⟨h1, h2⟩ | ⟨c, t, h1, h2⟩
      · subst h1
        subst h2
        simp [ValueParser.scan, ValueParser.endOfInput, hok]
      · subst h1
        simp [ValueParser.scan, P.delimited_step s c hdel h2]
    · simp at hv

theorem View.decodeItem_valueOf {S V : Type} (P : ValueParser S V) (err : Option Err)
    (e rest : List Byte) (fin : Err) (h : (P.valueOf e).isSome = true) (hrest : Follows rest fin) :
    View.decodeItem P err (e ++ rest) fin = ((none, P.valueOf e), ⟨.after, err, rest, fin⟩) := by
  obtain ⟨v, hv⟩ := Option.isSome_iff_exists.mp h
  obtain ⟨h1, h2⟩ := P.scanAll_valueOf e rest fin v hv hrest
  simp [View.decodeItem, h1, h2, hv]

theorem dropWhile_blank (w : List Byte) (c : Byte) (t : List Byte) (hw : blank w = true)
    (hc : isWhitespace c = false) : (w ++ c :: t).dropWhile isWhitespace = c :: t := by
  rw [dropWhile_whitespace ((blank_iff _).mp hw)]
  simp [List.dropWhile_cons, hc]

theorem dropWhile_blank_nil (w : List Byte) (hw : blank w = true) :
    w.dropWhile isWhitespace = [] := by
  have := dropWhile_whitespace ((blank_iff _).mp hw) []
  simpa using this

theorem View.Decode_comma {S V : Type} (P : ValueParser S V) (err : Option Err)
    (w bs : List Byte) (fin : Err) (hw : blank w = true) :
    View.Decode P ⟨.after, err, w ++ 0x2C :: bs, fin⟩ = View.decodeItem P err bs fin := by
  simp [View.Decode, dropWhile_blank w 0x2C bs hw (by decide)]

theorem View.Decode_close {S V : Type} (P : ValueParser S V) (err : Option Err)
    (w bs : List Byte) (fin : Err) (hw : blank w = true) :
    View.Decode P ⟨.after, err, w ++ 0x5D :: bs, fin⟩ = View.breaks (some .EOF) := by
  simp [View.Decode, dropWhile_blank w 0x5D bs hw (by decide)]

theorem View.Decode_open {S V : Type} (P : ValueParser S V) (err : Option Err)
    (w bs : List Byte) (fin : Err) (hw : blank w = true) :
    View.Decode P ⟨.start, err, w ++ 0x5B :: bs, fin⟩ = View.decodeItem P err bs fin := by
  simp [View.Decode, dropWhile_blank w 0x5B bs hw (by decide)]

theorem View.Decode_end {S V : Type} (P : ValueParser S V) (err : Option Err)
    (w : List Byte) (hw : blank w = true) :
    View.Decode P ⟨.after, err, w, .EOF⟩ = View.breaks (some .ErrUnexpectedEOF) := by
  simp [View.Decode, dropWhile_blank_nil w hw]

theorem Follows_closing (trail : List Byte) (its : List Item) (close : List Byte) (fin : Err)
    (ht : blank trail = true) (hc : Follows close fin) :
    Follows (trail ++ closing its close) fin := by
  cases trail with
  | nil =>
    cases its with
    | nil => simpa [closing] using hc
    | cons it its => exact Or.inr ⟨0x2C, _, rfl, by decide⟩
  | cons c t =>
    refine Or.inr ⟨c, _, rfl, whitespace_delimiter ?_⟩
    exact (blank_iff _).mp ht c (by simp)

theorem View.DecodeN_add {S V : Type} (P : ValueParser S V) (n m : Nat) (a : View) :
    View.DecodeN P (n + m) a =
      ((View.DecodeN P n a).1 ++ (View.DecodeN P m (View.DecodeN P n a).2).1,
        (View.DecodeN P m (View.DecodeN P n a).2).2) := by
  induction n generalizing a with
  | zero => simp [View.DecodeN]
  | succ n ih =>
    have : n + 1 + m = (n + m) + 1 := by omega
    rw [this]
    simp only [View.DecodeN, ih, List.cons_append]

theorem View.DecodeN_length {S V : Type} (P : ValueParser S V) (n : Nat) (a : View) :
    (View.DecodeN P n a).1.length = n := by
  induction n generalizing a with
  | zero => rfl
  | succ n ih => simp [View.DecodeN, ih]

theorem View.DecodeN_brokenView {S V : Type} (P : ValueParser S V) (e : Option Err) (n : Nat) :
    View.DecodeN P n ⟨.broken, e, [], .EOF⟩ =
      (List.replicate n (e, none), ⟨.broken, e, [], .EOF⟩) := by
  induction n with
  | zero => rfl
  | succ n ih => simp [View.DecodeN, View.Decode, ih, List.replicate_succ]

theorem View.DecodeN_items {S V : Type} (P : ValueParser S V) (err : Option Err)
    (its : List Item) (trail close : List Byte) (fin : Err) (ht : blank trail = true)
    (hits : WellFormed P its) (hc : Follows close fin) :
    ∃ w, blank w = true ∧
      View.DecodeN P its.length ⟨.after, err, trail ++ closing its close, fin⟩ =
        (itemResults P its, ⟨.after, err, w ++ close, fin⟩) := by
  induction its generalizing trail with
  | nil => exact ⟨trail, ht, rfl⟩
  | cons it its ih =>
    obtain ⟨hit1, hit2⟩ := hits it (by simp)
    obtain ⟨w, hw, h⟩ := ih it.trail hit1 (fun x hx => hits x (by simp [hx]))
    refine ⟨w, hw, ?_⟩
    have hstep : View.Decode P ⟨.after, err, trail ++ closing (it :: its) close, fin⟩ =
        ((none, P.valueOf (it.lead ++ it.text)),
          ⟨.after, err, it.trail ++ closing its close, fin⟩) := by
      simp only [closing]
      rw [View.Decode_comma P err trail _ fin ht]
      exact View.decodeItem_valueOf P err _ _ fin hit2 (Follows_closing _ _ _ _ hit1 hc)
    simp only [List.length_cons, View.DecodeN, hstep, h, itemResults, List.map_cons]

theorem View.DecodeN_array {S V : Type} (P : ValueParser S V) (err : Option Err)
    (w0 : List Byte) (items : List Item) (close : List Byte) (fin : Err) (hne : items ≠ [])
    (hw0 : blank w0 = true) (hits : WellFormed P items) (hc : Follows close fin) :
    ∃ w, blank w = true ∧
      View.DecodeN P items.length ⟨.start, err, arrayText w0 items close, fin⟩ =
        (itemResults P items, ⟨.after, err, w ++ close, fin⟩) := by
  cases items with
  | nil => exact absurd rfl hne
  | cons it its =>
    obtain ⟨hit1, hit2⟩ := hits it (by simp)
    obtain ⟨w, hw, h⟩ := View.DecodeN_items P err its it.trail close fin hit1
      (fun x hx => hits x (by simp [hx])) hc
    refine ⟨w, hw, ?_⟩
    have hstep : View.Decode P ⟨.start, err, arrayText w0 (it :: its) close, fin⟩ =
        ((none, P.valueOf (it.lead ++ it.text)),
          ⟨.after, err, it.trail ++ closing its close, fin⟩) := by
      simp only [arrayText, arrayBody]
      rw [View.Decode_open P err w0 _ fin hw0]
      exact View.decodeItem_valueOf P err _ _ fin hit2 (Follows_closing _ _ _ _ hit1 hc)
    simp only [List.length_cons, View.DecodeN, hstep, h, itemResults, List.map_cons]

theorem itemResults_ok {S V : Type} (P : ValueParser S V) (items : List Item)
    (hits : WellFormed P items) :
    ∀ res ∈ itemResults P items, res.1 = none ∧ res.2.isSome = true := by
  intro res hres
  simp only [itemResults, List.mem_map] at hres
  obtain ⟨it, hit, rfl⟩ := hres
  exact ⟨rfl, (hits it hit).2⟩

/-- C2: for a well-formed array with `N ≥ 1` items (whitespace `w0`, `[`, the items
separated by commas with whitespace around them, `]`, then anything), however
the reader delivers it, the first `N + 1` `Decode` calls of a fresh decoder
return: `N` times nil with the values of the items in order, then `io.EOF`. -/
theorem Decode_well_formed_array {S V : Type} (P : ValueParser S V) (r : Reader)
    (w0 : List Byte) (items : List Item) (tail : List Byte) (hne : items ≠ [])
    (hr : r.rest = arrayText w0 items (0x5D :: tail)) (hw0 : blank w0 = true)
    (hits : WellFormed P items) :
    (∃ d', (NewDecoder r).DecodeN P (items.length + 1) =
        some (itemResults P items ++ [(some .EOF, none)], d')) ∧
    (itemResults P items).length = items.length ∧
    ∀ res ∈ itemResults P items, res.1 = none ∧ res.2.isSome = true := by
  refine ⟨?_, by simp [itemResults], itemResults_ok P items hits⟩
  obtain ⟨d', h, _⟩ := (NewDecoder r).DecodeN_view P (items.length + 1)
  rw [NewDecoder_view, hr] at h
  obtain ⟨w, hw, hrun⟩ := View.DecodeN_array P none w0 items (0x5D :: tail) r.final hne hw0 hits
    (Or.inr ⟨0x5D, tail, rfl, by decide⟩)
  rw [View.DecodeN_add, hrun] at h
  simp only [View.DecodeN, View.Decode_close P none w tail r.final hw, View.breaks] at h
  exact ⟨d', h⟩

/-- Witness of C2: the test input `[{"X":1},  {"X" :2  }  ,  { "X" : 3  } ]  ` gives
1, 2, 3 and then `io.EOF`. -/
theorem Decode_well_formed_array_witness :
    (WellFormed sampleParser simpleItems ∧
      itemResults sampleParser simpleItems = [(none, some 1), (none, some 2), (none, some 3)]) ∧
    ((∃ d', (NewDecoder (.bytesReader (arrayText [] simpleItems [0x5D, 0x20, 0x20]))).DecodeN
        sampleParser (simpleItems.length + 1) =
        some (itemResults sampleParser simpleItems ++ [(some .EOF, none)], d')) ∧
      (itemResults sampleParser simpleItems).length = simpleItems.length ∧
      ∀ res ∈ itemResults sampleParser simpleItems, res.1 = none ∧ res.2.isSome = true) :=
  ⟨⟨by unfold WellFormed; decide, by decide⟩,
    Decode_well_formed_array sampleParser (.bytesReader (arrayText [] simpleItems [0x5D, 0x20, 0x20]))
      [] simpleItems [0x20, 0x20] (by decide) rfl (by decide) (by unfold WellFormed; decide)⟩

/-- C7: for a stream that holds `[`, then `k ≥ 1` complete items separated by
commas, and then ends with `io.EOF` after the last item and its whitespace, or
after one more comma, the first `k` `Decode` calls of a fresh decoder return
the items in order and call `k + 1` returns `io.ErrUnexpectedEOF`. The parser
does not take the empty input for a value. -/
theorem Decode_premature_end {S V : Type} (P : ValueParser S V) (r : Reader)
    (w0 : List Byte) (items : List Item) (comma : Bool) (hne : items ≠ [])
    (hr : r.rest = arrayText w0 items (if comma = true then [0x2C] else []))
    (hfin : r.final = .EOF) (hw0 : blank w0 = true) (hits : WellFormed P items)
    (hempty : P.eofOk P.init = false) :
    (∃ d', (NewDecoder r).DecodeN P (items.length + 1) =
        some (itemResults P items ++ [(some .ErrUnexpectedEOF, none)], d')) ∧
    (itemResults P items).length = items.length ∧
    ∀ res ∈ itemResults P items, res.1 = none ∧ res.2.isSome = true := by
  refine ⟨?_, by simp [itemResults], itemResults_ok P items hits⟩
  obtain ⟨d', h, _⟩ := (NewDecoder r).DecodeN_view P (items.length + 1)
  rw [NewDecoder_view, hr, hfin] at h
  cases comma with
  | true =>
    obtain ⟨w, hw, hrun⟩ := View.DecodeN_array P none w0 items [0x2C] .EOF hne hw0 hits
      (Or.inr ⟨0x2C, [], rfl, by decide⟩)
    simp only [if_true] at h
    rw [View.DecodeN_add, hrun] at h
    have hlast : View.decodeItem P none [] .EOF =
        (View.breaks (some .ErrUnexpectedEOF) : (Option Err × Option V) × View) := by
      simp [View.decodeItem, ValueParser.scanAll, ValueParser.scan, ValueParser.endOfInput,
        hempty, nonSpace]
    simp only [View.DecodeN, View.Decode_comma P none w [] .EOF hw, hlast, View.breaks] at h
    exact ⟨d', h⟩
  | false =>
    obtain ⟨w, hw, hrun⟩ := View.DecodeN_array P none w0 items [] .EOF hne hw0 hits
      (Or.inl ⟨rfl, rfl⟩)
    simp only [Bool.false_eq_true, if_false] at h
    rw [View.DecodeN_add, hrun] at h
    simp only [View.DecodeN, List.append_nil, View.Decode_end P none w hw, View.breaks] at h
    exact ⟨d', h⟩

/-- Witness of C7: the test input `[{"X":1},` gives 1 and then
`io.ErrUnexpectedEOF`. -/
theorem Decode_premature_end_witness :
    (WellFormed sampleParser earlyItems ∧
      itemResults sampleParser earlyItems = [(none, some 1)]) ∧
    ((∃ d', (NewDecoder (.bytesReader (arrayText [] earlyItems [0x2C]))).DecodeN
        sampleParser (earlyItems.length + 1) =
        some (itemResults sampleParser earlyItems ++ [(some .ErrUnexpectedEOF, none)], d')) ∧
      (itemResults sampleParser earlyItems).length = earlyItems.length ∧
      ∀ res ∈ itemResults sampleParser earlyItems, res.1 = none ∧ res.2.isSome = true) :=
  ⟨⟨by unfold WellFormed; decide, by decide⟩,
    Decode_premature_end sampleParser (.bytesReader (arrayText [] earlyItems [0x2C]))
      [] earlyItems true (by decide) rfl rfl (by decide) (by unfold WellFormed; decide)
      (by decide)⟩

/-! Whitespace around the items. -/

theorem ValueParser.scan_shift {S V : Type} (P : ValueParser S V) (s : S) (pos k : Nat)
    (e : List Byte) :
    P.scan s (pos + k) e =
      match P.scan s pos e with
      | .needMore s' => .needMore s'
      | .value n => .value (n + k)
      | .error x => .error x := by
  induction e generalizing s pos with
  | nil => rfl
  | cons c e ih =>
    simp only [ValueParser.scan]
    cases P.step s c with
    | more s' =>
      simp only
      have : pos + k + 1 = (pos + 1) + k := by omega
      rw [this, ih]
    | endBefore => rfl
    | endWith =>
      simp only [ScanOutcome.value.injEq]
      omega
    | error x => rfl

theorem ValueParser.scan_skip {S V : Type} (P : ValueParser S V)
    (hskip : ∀ c, isWhitespace c = true → P.step P.init c = .more P.init)
    (u e : List Byte) (pos : Nat) (hu : blank u = true) :
    P.scan P.init pos (u ++ e) = P.scan P.init (pos + u.length) e := by
  induction u generalizing pos with
  | nil => rfl
  | cons c u ih =>
    have hc : isWhitespace c = true := (blank_iff _).mp hu c (by simp)
    have hu' : blank u = true := (blank_iff _).mpr fun x hx => (blank_iff _).mp hu x (by simp [hx])
    rw [List.cons_append]
    simp only [ValueParser.scan, hskip c hc, List.length_cons]
    rw [ih (pos + 1) hu']
    have : pos + 1 + u.length = pos + (u.length + 1) := by omega
    rw [this]

theorem ValueParser.valueOf_lead {S V : Type} (P : ValueParser S V)
    (hskip : ∀ c, isWhitespace c = true → P.step P.init c = .more P.init)
    (hun : ∀ u e, blank u = true → P.unmarshal (u ++ e) = P.unmarshal e)
    (u e : List Byte) (hu : blank u = true) : P.valueOf (u ++ e) = P.valueOf e := by
  simp only [ValueParser.valueOf, P.scan_skip hskip u e 0 hu, P.scan_shift P.init 0 u.length e,
    hun u e hu, List.length_append]
  cases P.scan P.init 0 e with
  | needMore s => rfl
  | value n =>
    have key : (n + u.length = u.length + e.length) ↔ n = e.length := by omega
    simp only [key]
  | error x => rfl

theorem View.DecodeN_of_breaks {S V : Type} (P : ValueParser S V) (a : View) (x : Option Err)
    (h : View.Decode P a = View.breaks x) (n : Nat) :
    (View.DecodeN P n a).1 = List.replicate n (x, none) := by
  cases n with
  | zero => rfl
  | succ n => simp [View.DecodeN, h, View.breaks, View.DecodeN_brokenView, List.replicate_succ]

theorem View.DecodeN_take {S V : Type} (P : ValueParser S V) (n k : Nat) (a : View) :
    (View.DecodeN P n a).1 = ((View.DecodeN P (n + k) a).1).take n := by
  rw [View.DecodeN_add]
  simp only
  rw [List.take_append_of_le_length (by rw [View.DecodeN_length]),
    List.take_of_length_le (by rw [View.DecodeN_length])]

theorem itemResults_text {S V : Type} (P : ValueParser S V)
    (hskip : ∀ c, isWhitespace c = true → P.step P.init c = .more P.init)
    (hun : ∀ u e, blank u = true → P.unmarshal (u ++ e) = P.unmarshal e)
    (items : List Item) (hlead : ∀ it ∈ items, blank it.lead = true) :
    itemResults P items = (items.map Item.text).map fun t => (none, P.valueOf t) := by
  simp only [itemResults, List.map_map]
  apply List.map_congr_left
  intro it hit
  simp [P.valueOf_lead hskip hun it.lead it.text (hlead it hit)]

theorem blank_append (a b : List Byte) (ha : blank a = true) (hb : blank b = true) :
    blank (a ++ b) = true := by
  simp only [blank, List.all_append, Bool.and_eq_true] at *
  exact ⟨ha, hb⟩

/-- Results of `n` calls on a whitespace-padded array text, as a function of the
value texts of its items alone. -/
theorem View.DecodeN_padded {S V : Type} (P : ValueParser S V)
    (hskip : ∀ c, isWhitespace c = true → P.step P.init c = .more P.init)
    (hun : ∀ u e, blank u = true → P.unmarshal (u ++ e) = P.unmarshal e)
    (e : Err) (hclose : P.step P.init 0x5D = .error e)
    (w0 : List Byte) (items : List Item) (inner tail : List Byte) (fin : Err)
    (hw0 : blank w0 = true) (hinner : blank inner = true)
    (hlead : ∀ it ∈ items, blank it.lead = true) (htrail : ∀ it ∈ items, blank it.trail = true)
    (hval : ∀ it ∈ items, (P.valueOf it.text).isSome = true) (n : Nat) :
    (View.DecodeN P n ⟨.start, none, arrayText w0 items (inner ++ 0x5D :: tail), fin⟩).1 =
      if items = [] then
        List.replicate n (some (if e = Err.EOF then Err.ErrUnexpectedEOF else e), none)
      else
        (((items.map Item.text).map fun t => (none, P.valueOf t)) ++
          List.replicate (1 + n) (some Err.EOF, none)).take n := by
  by_cases hne : items = []
  · subst hne
    simp only [if_true]
    apply View.DecodeN_of_breaks
    simp only [arrayText, arrayBody]
    rw [View.Decode_open P none w0 _ fin hw0]
    have hscan : P.scanAll P.init [] (inner ++ 0x5D :: tail) fin = .error e := by
      simp only [ValueParser.scanAll, List.length_nil, P.scan_skip hskip inner _ 0 hinner,
        ValueParser.scan, hclose]
    simp [View.decodeItem, hscan]
  · simp only [hne, if_false]
    have hwf : WellFormed P items := fun it hit =>
      ⟨htrail it hit, by rw [P.valueOf_lead hskip hun it.lead it.text (hlead it hit)]
                         exact hval it hit⟩
    have hfol : Follows (inner ++ 0x5D :: tail) fin := by
      have := Follows_closing inner [] (0x5D :: tail) fin hinner (Or.inr ⟨0x5D, tail, rfl, by decide⟩)
      simpa [closing] using this
    obtain ⟨w, hw, hrun⟩ := View.DecodeN_array P none w0 items (inner ++ 0x5D :: tail) fin hne hw0
      hwf hfol
    rw [View.DecodeN_take P n (items.length + 1)]
    have hcount : n + (items.length + 1) = items.length + (1 + n) := by omega
    rw [hcount, View.DecodeN_add, hrun]
    simp only
    have hbr : View.Decode P ⟨.after, none, w ++ (inner ++ 0x5D :: tail), fin⟩ =
        View.breaks (some .EOF) := by
      rw [← List.append_assoc]
      exact View.Decode_close P none (w ++ inner) tail fin (blank_append w inner hw hinner)
    rw [View.DecodeN_of_breaks P _ _ hbr, itemResults_text P hskip hun items hlead]

theorem sampleParser_skip (c : Byte) (h : isWhitespace c = true) :
    sampleParser.step sampleParser.init c = .more sampleParser.init := by
  simp [sampleParser, sampleStep, h]

theorem sampleParser_unmarshal_blank (u e : List Byte) (hu : blank u = true) :
    sampleParser.unmarshal (u ++ e) = sampleParser.unmarshal e := by
  have : u.filter (fun c => !isWhitespace c) = [] := by
    rw [List.filter_eq_nil_iff]
    intro a ha
    simp [(blank_iff _).mp hu a ha]
  simp [sampleParser, sampleUnmarshal, List.filter_append, this]

/-- C10: take two array texts with the same value texts in the same order, each
with any whitespace before `[`, before and after every value (so around every
`,`), before `]`, and anything after `]`. For a value parser that skips leading
whitespace and does not take `]` for the start of a value, any number of
`Decode` calls returns the same results on both, however the two readers
deliver their bytes and end. -/
theorem Decode_whitespace_invariant {S V : Type} (P : ValueParser S V)
    (hskip : ∀ c, isWhitespace c = true → P.step P.init c = .more P.init)
    (hun : ∀ u e, blank u = true → P.unmarshal (u ++ e) = P.unmarshal e)
    (hclose : ∃ e, P.step P.init 0x5D = .error e)
    (r1 r2 : Reader) (w1 w2 : List Byte) (items1 items2 : List Item)
    (inner1 inner2 tail1 tail2 : List Byte)
    (hr1 : r1.rest = arrayText w1 items1 (inner1 ++ 0x5D :: tail1))
    (hr2 : r2.rest = arrayText w2 items2 (inner2 ++ 0x5D :: tail2))
    (htext : items1.map Item.text = items2.map Item.text)
    (hval : ∀ it ∈ items1, (P.valueOf it.text).isSome = true)
    (hb1 : blank w1 = true ∧ blank inner1 = true ∧
      ∀ it ∈ items1, blank it.lead = true ∧ blank it.trail = true)
    (hb2 : blank w2 = true ∧ blank inner2 = true ∧
      ∀ it ∈ items2, blank it.lead = true ∧ blank it.trail = true)
    (n : Nat) :
    ∃ results : List (Option Err × Option V),
      ((NewDecoder r1).DecodeN P n).map (fun x => x.1) = some results ∧
      ((NewDecoder r2).DecodeN P n).map (fun x => x.1) = some results := by
  obtain ⟨e, he⟩ := hclose
  obtain ⟨hw1, hi1, hl1⟩ := hb1
  obtain ⟨hw2, hi2, hl2⟩ := hb2
  have hval2 : ∀ it ∈ items2, (P.valueOf it.text).isSome = true := by
    intro it hit
    have hmem : it.text ∈ items1.map Item.text := by
      rw [htext]
      exact List.mem_map_of_mem _ hit
    obtain ⟨it1, hit1, heq⟩ := List.mem_map.mp hmem
    rw [← heq]
    exact hval it1 hit1
  have hnil : items1 = [] ↔ items2 = [] := by
    rw [← List.map_eq_nil_iff (f := Item.text) (l := items1),
      ← List.map_eq_nil_iff (f := Item.text) (l := items2), htext]
  obtain ⟨d1, h1, _⟩ := (NewDecoder r1).DecodeN_view P n
  obtain ⟨d2, h2, _⟩ := (NewDecoder r2).DecodeN_view P n
  rw [NewDecoder_view, hr1, View.DecodeN_padded P hskip hun e he w1 items1 inner1 tail1 r1.final
    hw1 hi1 (fun it hit => (hl1 it hit).1) (fun it hit => (hl1 it hit).2) hval n] at h1
  rw [NewDecoder_view, hr2, View.DecodeN_padded P hskip hun e he w2 items2 inner2 tail2 r2.final
    hw2 hi2 (fun it hit => (hl2 it hit).1) (fun it hit => (hl2 it hit).2) hval2 n] at h2
  refine ⟨_, by rw [h1]; rfl, ?_⟩
  rw [h2, ← htext]
  simp only [hnil, Option.map_some']

/-- Witness of C10: `[{"X":1},{"X" :2  },{ "X" : 3  }]` and the same items with
whitespace before `[`, around the commas and before `]`; five calls give 1, 2,
3 and twice `io.EOF` on the padded text. -/
theorem Decode_whitespace_invariant_witness :
    (compactItems.map Item.text = simpleItems.map Item.text ∧
      ((NewDecoder (.bytesReader (arrayText [0x20] simpleItems
          ([0x0A] ++ 0x5D :: [0x20, 0x20])))).DecodeN sampleParser 5).map (fun x => x.1) =
        some [(none, some 1), (none, some 2), (none, some 3), (some .EOF, none),
          (some .EOF, none)]) ∧
    ∃ results : List (Option Err × Option Nat),
      ((NewDecoder (.bytesReader (arrayText [] compactItems ([] ++ 0x5D :: [])))).DecodeN
        sampleParser 5).map (fun x => x.1) = some results ∧
      ((NewDecoder (.bytesReader (arrayText [0x20] simpleItems
        ([0x0A] ++ 0x5D :: [0x20, 0x20])))).DecodeN sampleParser 5).map (fun x => x.1) =
        some results :=
  ⟨⟨by decide, by decide⟩,
    Decode_whitespace_invariant sampleParser sampleParser_skip sampleParser_unmarshal_blank
      ⟨.other 1, rfl⟩ (.bytesReader (arrayText [] compactItems ([] ++ 0x5D :: [])))
      (.bytesReader (arrayText [0x20] simpleItems ([0x0A] ++ 0x5D :: [0x20, 0x20])))
      [] [0x20] compactItems simpleItems [] [0x0A] [] [0x20, 0x20] rfl rfl (by decide)
      (by decide) (by decide) (by decide) 5⟩

/-! The reader stack as one stream. -/

theorem readLoop_EOF (rs : List Reader) (n : Nat) (h : (readLoop rs n).1.2 = some .EOF) :
    (readLoop rs n).2 = [] ∧ (readLoop rs n).1.1 = [] := by
  induction rs with
  | nil => exact ⟨rfl, rfl⟩
  | cons r rest ih =>
    simp only [readLoop] at h ⊢
    split
    · rename_i hc
      rw [if_pos hc] at h
      simp only at h
      split at h <;> simp_all
    · rename_i hc
      rw [if_neg hc] at h
      exact ih h

theorem readByteLoop_EOF (rs : List Reader) (h : (readByteLoop rs).1.2 = some .EOF) :
    (readByteLoop rs).2 = [] := by
  induction rs with
  | nil => rfl
  | cons r rest ih =>
    simp only [readByteLoop] at h ⊢
    split
    · rename_i hc
      rw [if_pos hc] at h
      exact ih h
    · rename_i hc
      rw [if_neg hc] at h
      exact absurd h hc

theorem readByteLoop_remaining (rs : List Reader) :
    (rs.map Reader.rest).flatten =
      (if (readByteLoop rs).1.2 = none then [(readByteLoop rs).1.1] else []) ++
        ((readByteLoop rs).2.map Reader.rest).flatten := by
  induction rs with
  | nil => rfl
  | cons r rest ih =>
    rcases Reader.ReadByte_spec r with ⟨c, r', h, hrest, _, _⟩ | ⟨r', h, hrest, hrest', _, _⟩
    · simp [readByteLoop, h, hrest]
    · by_cases hE : r.final = .EOF
      · have hloop : readByteLoop (r :: rest) = readByteLoop rest := by
          simp [readByteLoop, h, hE]
        rw [hloop, ← ih]
        simp [hrest]
      · simp [readByteLoop, h, hE, hrest, hrest']

theorem stackReader.call_remaining (mr : stackReader) (c : Call) :
    mr.remaining = (mr.call c).1.1 ++ (mr.call c).2.remaining := by
  cases c with
  | Read n => exact (stackReader.Read_stack mr n).1
  | ReadByte => exact readByteLoop_remaining mr.readers

theorem stackReader.call_EOF (mr : stackReader) (c : Call) (h : (mr.call c).1.2 = some .EOF) :
    (mr.call c).2.readers = [] ∧ (mr.call c).1.1 = [] := by
  cases c with
  | Read n => exact readLoop_EOF mr.readers n h
  | ReadByte =>
    refine ⟨readByteLoop_EOF mr.readers h, ?_⟩
    have h' : (mr.ReadByte).1.2 = some .EOF := h
    simp [stackReader.call, h']

theorem stackReader.calls_remaining (mr : stackReader) (cs : List Call) :
    delivered (mr.calls cs).1 ++ (mr.calls cs).2.remaining = mr.remaining := by
  induction cs generalizing mr with
  | nil => simp [stackReader.calls, delivered]
  | cons c cs ih =>
    have h1 := stackReader.call_remaining mr c
    have h2 := ih (mr.call c).2
    simp only [delivered] at h2
    simp only [stackReader.calls, delivered, List.map_cons, List.flatten_cons,
      List.append_assoc]
    rw [h2]
    exact h1.symm

theorem stackReader.Insert_remaining (mr : stackReader) (r : Reader) :
    (mr.Insert r).remaining = r.rest ++ mr.remaining := by
  by_cases h : isEmpty r = true
  · have : r.rest = [] := by
      cases r with
      | bytesReader s =>
        simp only [isEmpty, beq_iff_eq] at h
        simpa [Reader.rest] using List.length_eq_zero.mp h
      | stream _ _ _ => simp [isEmpty] at h
    simp [stackReader.Insert, h, this]
  · simp [stackReader.Insert, h, stackReader.remaining]

/-- C11: after `Insert(r)`, for any sequence of `Read` and `ReadByte` calls, the
bytes returned so far followed by the bytes still held by the stack are the
bytes of `r` followed by the bytes of the readers present before, top of the
stack first: bytes come out in that order, none lost, duplicated or reordered.
Once a call returns `io.EOF` the bytes returned are all of them. -/
theorem Insert_then_calls (mr : stackReader) (r : Reader) (cs : List Call) :
    delivered ((mr.Insert r).calls cs).1 ++ ((mr.Insert r).calls cs).2.remaining =
      r.rest ++ mr.remaining ∧
    ∀ c, (((mr.Insert r).calls cs).2.call c).1.2 = some .EOF →
      delivered ((mr.Insert r).calls cs).1 = r.rest ++ mr.remaining := by
  have h := stackReader.calls_remaining (mr.Insert r) cs
  rw [stackReader.Insert_remaining] at h
  refine ⟨h, fun c hc => ?_⟩
  obtain ⟨h1, h2⟩ := stackReader.call_EOF _ c hc
  have h3 := stackReader.call_remaining ((mr.Insert r).calls cs).2 c
  rw [h2] at h3
  have h4 : (((mr.Insert r).calls cs).2.call c).2.remaining = [] := by
    simp [stackReader.remaining, h1]
  rw [h4] at h3
  rw [h3] at h
  simpa using h

/-- C12: `Read` and `ReadByte` return `io.EOF` only with the stack empty on return;
when the top reader returns `io.EOF` (with no bytes, for `Read`) it is popped
and the call goes on with the readers below; and when the top reader returns
bytes together with `io.EOF`, `Read` pops it and returns the bytes with a nil
error. -/
theorem EOF_only_for_empty_stack (r : Reader) (rest : List Reader) (n : Nat) :
    (∀ mr : stackReader, (mr.Read n).1.2 = some .EOF → (mr.Read n).2.readers = []) ∧
    (∀ mr : stackReader, (mr.ReadByte).1.2 = some .EOF → (mr.ReadByte).2.readers = []) ∧
    ((r.Read n).1.2 = some .EOF → (r.Read n).1.1.length = 0 →
      (⟨r :: rest⟩ : stackReader).Read n = (⟨rest⟩ : stackReader).Read n) ∧
    ((r.ReadByte).1.2 = some .EOF →
      (⟨r :: rest⟩ : stackReader).ReadByte = (⟨rest⟩ : stackReader).ReadByte) ∧
    ((r.Read n).1.2 = some .EOF → (r.Read n).1.1.length > 0 →
      (⟨r :: rest⟩ : stackReader).Read n = (((r.Read n).1.1, none), ⟨rest⟩)) := by
  refine ⟨fun mr h => (readLoop_EOF mr.readers n h).1, fun mr h => readByteLoop_EOF mr.readers h,
    ?_, ?_, ?_⟩
  · intro h1 h2
    simp [stackReader.Read, readLoop, h1, h2]
  · intro h1
    simp [stackReader.ReadByte, readByteLoop, h1]
  · intro h1 h2
    simp [stackReader.Read, readLoop, h1, h2]

/-- Witness of C12: a reader that returns its two bytes together with `io.EOF`, on
top of an in-memory reader. -/
theorem EOF_only_for_empty_stack_witness :
    ((Reader.stream [[1, 2]] true .EOF).Read 5).1 = ([1, 2], some .EOF) ∧
    (⟨[.stream [[1, 2]] true .EOF, .bytesReader [3]]⟩ : stackReader).Read 5 =
      ((([1, 2] : List Byte), none), ⟨[.bytesReader [3]]⟩) :=
  ⟨by decide,
    (EOF_only_for_empty_stack (.stream [[1, 2]] true .EOF) [.bytesReader [3]] 5).2.2.2.2
      (by decide) (by decide)⟩

theorem readLoop_drained (rs : List Reader) (n : Nat) (h : rs.any isEmpty = false) :
    (readLoop rs n).2.any isEmpty = false := by
  induction rs with
  | nil => rfl
  | cons r rest ih =>
    simp only [List.any_cons, Bool.or_eq_false_iff] at h
    obtain ⟨_, hrest⟩ := h
    simp only [readLoop]
    by_cases hc : (r.Read n).1.1.length > 0 ∨ (r.Read n).1.2 ≠ some .EOF
    · rw [if_pos hc]
      simp only
      by_cases hp : (r.Read n).1.2 = some .EOF ∨ isEmpty (r.Read n).2 = true
      · rw [if_pos hp]
        exact hrest
      · rw [if_neg hp]
        simp only [not_or, Bool.not_eq_true] at hp
        simp [hp.2, hrest]
    · rw [if_neg hc]
      exact ih hrest

theorem readByteLoop_tail (rs : List Reader) :
    ∀ r ∈ (readByteLoop rs).2.tail, r ∈ rs := by
  induction rs with
  | nil => simp [readByteLoop]
  | cons r rest ih =>
    intro x hx
    simp only [readByteLoop] at hx
    split at hx
    · exact List.mem_cons_of_mem _ (ih x hx)
    · exact List.mem_cons_of_mem _ hx

/-- C13, counterexample: the stack holds the in-memory reader of the single byte
`,` on top of another reader and no drained reader; after `ReadByte` the
drained `bytes.Reader` is still on the stack. -/
theorem ReadByte_leaves_drained :
    (⟨[.bytesReader [0x2C], .stream [[0x31]] false .EOF]⟩ : stackReader).drained = false ∧
    ((⟨[.bytesReader [0x2C], .stream [[0x31]] false .EOF]⟩ : stackReader).ReadByte).1 =
      (0x2C, none) ∧
    ((⟨[.bytesReader [0x2C], .stream [[0x31]] false .EOF]⟩ : stackReader).ReadByte).2.drained =
      true := by
  decide

/-- C13, as amended: on a stack that holds no drained `bytes.Reader`, `Read` and
`Insert` leave none; `ReadByte` pops a reader only when it returns `io.EOF`, so
after it only the top reader can be a drained `bytes.Reader`, and the next
`Read` or `ReadByte` call pops that reader and goes on with the readers
below. -/
theorem Read_keeps_undrained (mr : stackReader) (n : Nat) (h : mr.drained = false) :
    (mr.Read n).2.drained = false ∧
    (∀ r, (mr.Insert r).drained = false) ∧
    (∀ r ∈ (mr.ReadByte).2.readers.tail, isEmpty r = false) ∧
    (∀ (r : Reader) (rest : List Reader) (k : Nat), isEmpty r = true →
      (⟨r :: rest⟩ : stackReader).Read k = (⟨rest⟩ : stackReader).Read k ∧
      (⟨r :: rest⟩ : stackReader).ReadByte = (⟨rest⟩ : stackReader).ReadByte) := by
  refine ⟨readLoop_drained mr.readers n h, ?_, ?_, ?_⟩
  · intro r
    by_cases hr : isEmpty r = true
    · simpa [stackReader.Insert, hr] using h
    · simp only [stackReader.drained] at h
      simp [stackReader.Insert, hr, stackReader.drained, h]
  · intro r hr
    have hmem := readByteLoop_tail mr.readers r hr
    simp only [stackReader.drained, List.any_eq_false] at h
    simpa using h r hmem
  · intro r rest k hr
    cases r with
    | stream _ _ _ => simp [isEmpty] at hr
    | bytesReader s =>
      have hs : s = [] := by
        simp only [isEmpty, beq_iff_eq] at hr
        exact List.length_eq_zero.mp hr
      subst hs
      exact ⟨by simp [stackReader.Read, readLoop, Reader.Read],
        by simp [stackReader.ReadByte, readByteLoop, Reader.ReadByte]⟩

/-- Witness of C13 as amended: the stack of the counterexample. -/
theorem Read_keeps_undrained_witness :
    (⟨[.bytesReader [0x2C], .stream [[0x31]] false .EOF]⟩ : stackReader).drained = false ∧
    ((⟨[.bytesReader [0x2C], .stream [[0x31]] false .EOF]⟩ : stackReader).Read 1).2.drained =
      false :=
  ⟨by decide,
    (Read_keeps_undrained ⟨[.bytesReader [0x2C], .stream [[0x31]] false .EOF]⟩ 1
      (by decide)).1⟩

/-! Errors, the end of the array and the states of the decoder. -/

/-- C14: an error `e` other than `io.EOF` is returned as it is. When the framing
read fails with `e`, or the value parser returns `e`, `Decode` returns `e` and
leaves the decoder broken with `e` stored; and `Read` and `ReadByte` of the
stack return what the top reader returned when that reader fails with `e`. -/
theorem Decode_propagates_errors {S V : Type} (P : ValueParser S V) (d : Decoder) (e : Err)
    (he : e ≠ .EOF) :
    (∀ c mr, d.state ≠ .broken → d.readNonWhitespace = some ((c, some e), mr) →
      d.Decode P = some ((some e, none), ⟨.broken, mr, some e⟩)) ∧
    (∀ c mr b mr', (d.state = .start ∧ c = 0x5B) ∨ (d.state = .after ∧ c = 0x2C) →
      d.readNonWhitespace = some ((c, none), mr) → P.Decode mr = some (.error e, b, mr') →
      d.Decode P = some ((some e, none), ⟨.broken, mr', some e⟩)) ∧
    (∀ (r : Reader) (rest : List Reader) (n : Nat), (r.Read n).1.2 = some e →
      ((⟨r :: rest⟩ : stackReader).Read n).1 = (r.Read n).1) ∧
    (∀ (r : Reader) (rest : List Reader), (r.ReadByte).1.2 = some e →
      ((⟨r :: rest⟩ : stackReader).ReadByte).1 = (r.ReadByte).1) := by
  refine ⟨?_, ?_, ?_, ?_⟩
  · intro c mr hst h
    cases hs : d.state with
    | broken => exact absurd hs hst
    | start => simp [Decoder.Decode, hs, h, Decoder.breaks]
    | after => simp [Decoder.Decode, hs, h, Decoder.breaks, he]
  · intro c mr b mr' hst h hP
    rcases hst with ⟨hs, hc⟩ | ⟨hs, hc⟩
    · subst hc
      simp [Decoder.Decode, hs, h, Decoder.decodeItem, hP, he, Decoder.breaks]
    · subst hc
      simp [Decoder.Decode, hs, h, Decoder.decodeItem, hP, he, Decoder.breaks]
  · intro r rest n h
    simp only [stackReader.Read, readLoop, h, Option.some.injEq, he, ne_eq, not_false_eq_true,
      or_true, if_true, if_false]
    rw [← h]
  · intro r rest h
    simp [stackReader.ReadByte, readByteLoop, h, he]

/-- Witness of C14: the underlying reader fails with an error after a space. -/
theorem Decode_propagates_errors_witness :
    (Err.other 7 ≠ Err.EOF ∧
      (NewDecoder (.stream [[0x20]] false (.other 7))).readNonWhitespace =
        some ((0, some (.other 7)), ⟨[.stream [] false (.other 7)]⟩)) ∧
    (NewDecoder (.stream [[0x20]] false (.other 7))).Decode sampleParser =
      some ((some (.other 7), none),
        ⟨.broken, ⟨[.stream [] false (.other 7)]⟩, some (.other 7)⟩) :=
  ⟨⟨by decide, by decide⟩,
    (Decode_propagates_errors sampleParser (NewDecoder (.stream [[0x20]] false (.other 7)))
      (.other 7) (by decide)).1 0 ⟨[.stream [] false (.other 7)]⟩ (by decide) (by decide)⟩

/-- C15: a decoder in state `after` whose next non-whitespace byte is `]` returns
`io.EOF` whatever follows: the framing read stops right after `]`, the bytes
`rest` behind it are all still on the stack, the value parser is not run, and
every later call returns `io.EOF` and leaves the stack as it is. -/
theorem Decode_close_ignores_trailing (d : Decoder) (w rest : List Byte)
    (hst : d.state = .after) (hb : d.r.bytes = w ++ 0x5D :: rest) (hw : blank w = true) :
    ∃ mr, d.readNonWhitespace = some ((0x5D, none), mr) ∧ mr.bytes = rest ∧
      ∀ (S V : Type) (P : ValueParser S V),
        d.Decode P = some ((some .EOF, (none : Option V)), ⟨.broken, mr, some .EOF⟩) ∧
        ∀ n, (⟨.broken, mr, some .EOF⟩ : Decoder).DecodeN P n =
          some (List.replicate n (some .EOF, (none : Option V)), ⟨.broken, mr, some .EOF⟩) := by
  obtain ⟨mr, h, hbytes, _⟩ := d.readNonWhitespace_byte w 0x5D rest hb hw (by decide)
  refine ⟨mr, h, hbytes, fun S V P => ⟨?_, fun n => ?_⟩⟩
  · simp [Decoder.Decode, hst, h, Decoder.breaks]
  · exact Decoder.DecodeN_broken P ⟨.broken, mr, some .EOF⟩ rfl n

/-- Witness of C15: after the last item the stack holds ` ]  x`. -/
theorem Decode_close_ignores_trailing_witness :
    ((⟨.after, ⟨[.bytesReader [0x20, 0x5D, 0x20, 0x20, 0x78]]⟩, none⟩ : Decoder).r.bytes =
      [0x20] ++ 0x5D :: [0x20, 0x20, 0x78]) ∧
    ∃ mr, (⟨.after, ⟨[.bytesReader [0x20, 0x5D, 0x20, 0x20, 0x78]]⟩, none⟩ :
        Decoder).readNonWhitespace = some ((0x5D, none), mr) ∧ mr.bytes = [0x20, 0x20, 0x78] ∧
      ∀ (S V : Type) (P : ValueParser S V),
        (⟨.after, ⟨[.bytesReader [0x20, 0x5D, 0x20, 0x20, 0x78]]⟩, none⟩ : Decoder).Decode P =
          some ((some .EOF, (none : Option V)), ⟨.broken, mr, some .EOF⟩) ∧
        ∀ n, (⟨.broken, mr, some .EOF⟩ : Decoder).DecodeN P n =
          some (List.replicate n (some .EOF, (none : Option V)), ⟨.broken, mr, some .EOF⟩) :=
  ⟨by decide,
    Decode_close_ignores_trailing ⟨.after, ⟨[.bytesReader [0x20, 0x5D, 0x20, 0x20, 0x78]]⟩, none⟩
      [0x20] [0x20, 0x20, 0x78] rfl (by decide) (by decide)⟩

theorem Decoder.decodeItem_nil {S V : Type} (P : ValueParser S V) (d d' : Decoder)
    (mr : stackReader) (v : Option V) (h : d.decodeItem P mr = some ((none, v), d')) :
    d'.state = d.state ∧ d'.err = d.err := by
  simp only [Decoder.decodeItem] at h
  split at h
  · simp at h
  · split at h <;> simp [Decoder.breaks] at h
  · simp only [Option.some.injEq, Prod.mk.injEq, true_and] at h
    obtain ⟨_, h2⟩ := h
    subst h2
    exact ⟨rfl, rfl⟩

theorem Decoder.Decode_nil {S V : Type} (P : ValueParser S V) (d d' : Decoder)
    (v : Option V) (h : d.Decode P = some ((none, v), d')) :
    (d.state = .broken ∧ d.err = none) ∨ (d'.state = .after ∧ d'.err = d.err) := by
  simp only [Decoder.Decode] at h
  split at h
  · rename_i hst
    simp only [Option.some.injEq, Prod.mk.injEq] at h
    exact Or.inl ⟨hst, h.1.1⟩
  · split at h
    · simp at h
    · split at h
      · rename_i herr
        simp only [Decoder.breaks, Option.some.injEq, Prod.mk.injEq] at h
        exact absurd h.1.1 herr
      · split at h
        · exact Or.inr (Decoder.decodeItem_nil P _ d' _ v h)
        · simp [Decoder.breaks] at h
  · rename_i hst
    split at h
    · simp at h
    · split at h
      · simp [Decoder.breaks] at h
      · split at h
        · rename_i herr
          simp only [Decoder.breaks, Option.some.injEq, Prod.mk.injEq] at h
          exact absurd h.1.1 herr
        · split at h
          · have := Decoder.decodeItem_nil P _ d' _ v h
            exact Or.inr ⟨by rw [this.1, hst], this.2⟩
          · split at h <;> simp [Decoder.breaks] at h

theorem Decoder.Decode_consistent {S V : Type} (P : ValueParser S V) (d d' : Decoder)
    (e : Option Err) (v : Option V) (hd : d.Consistent) (h : d.Decode P = some ((e, v), d')) :
    d'.Consistent ∧ d'.state ≠ .start ∧ (d.state = .broken → d'.state = .broken) ∧
    ((e = none ∧ d'.state = .after ∧ d'.err = none) ∨
      (∃ x, e = some x ∧ d'.state = .broken ∧ d'.err = some x)) := by
  cases e with
  | some x =>
    obtain ⟨h1, h2, _⟩ := Decoder.Decode_error P d d' x v h
    exact ⟨Or.inl ⟨h1, by simp [h2]⟩, by simp [h1], fun _ => h1, Or.inr ⟨x, rfl, h1, h2⟩⟩
  | none =>
    rcases Decoder.Decode_nil P d d' v h with ⟨h1, h2⟩ | ⟨h1, h2⟩
    · rcases hd with ⟨_, h3⟩ | ⟨h3, _⟩
      · exact absurd h2 h3
      · exact absurd h1 h3
    · rcases hd with ⟨h3, h4⟩ | ⟨h3, h4⟩
      · have hb : d.Decode P = some ((d.err, none), d) := by simp [Decoder.Decode, h3]
        rw [hb] at h
        simp only [Option.some.injEq, Prod.mk.injEq] at h
        exact absurd h.1.1 h4
      · rw [h4] at h2
        exact ⟨Or.inr ⟨by simp [h1], h2⟩, by simp [h1], fun hb => absurd hb h3,
          Or.inl ⟨rfl, h1, h2⟩⟩

theorem Decoder.DecodeN_consistent {S V : Type} (P : ValueParser S V) (n : Nat) (d d' : Decoder)
    (results : List (Option Err × Option V)) (hd : d.Consistent)
    (h : d.DecodeN P n = some (results, d')) : d'.Consistent := by
  induction n generalizing d results with
  | zero =>
    simp only [Decoder.DecodeN, Option.some.injEq, Prod.mk.injEq] at h
    rw [← h.2]
    exact hd
  | succ n ih =>
    simp only [Decoder.DecodeN] at h
    split at h
    · simp at h
    · rename_i res d1 h1
      split at h
      · simp at h
      · rename_i rs d2 h2
        simp only [Option.some.injEq, Prod.mk.injEq] at h
        obtain ⟨_, h3⟩ := h
        subst h3
        exact ih d1 rs (Decoder.Decode_consistent P d d1 res.1 res.2 hd h1).1 h2

/-- C16: a decoder from `NewDecoder` is in state `start` with a nil stored error
and one reader on its stack; every decoder reached from it by `Decode` calls
has its state in agreement with its stored error; and on such a decoder a
`Decode` call that returns nil leaves state `after` with a nil stored error,
one that returns an error leaves state `broken` with that error stored, the
state is never `start` afterwards, and a broken decoder stays broken. -/
theorem Decoder_state_forward {S V : Type} (P : ValueParser S V) (r : Reader) :
    ((NewDecoder r).state = .start ∧ (NewDecoder r).err = none ∧
      (NewDecoder r).r.readers.length = 1) ∧
    (∀ n results d', (NewDecoder r).DecodeN P n = some (results, d') → d'.Consistent) ∧
    (∀ (d d' : Decoder) (e : Option Err) (v : Option V), d.Consistent →
      d.Decode P = some ((e, v), d') →
      d'.Consistent ∧ d'.state ≠ .start ∧ (d.state = .broken → d'.state = .broken) ∧
      ((e = none ∧ d'.state = .after ∧ d'.err = none) ∨
        (∃ x, e = some x ∧ d'.state = .broken ∧ d'.err = some x))) := by
  refine ⟨⟨rfl, rfl, rfl⟩, ?_, fun d d' e v hd h => Decoder.Decode_consistent P d d' e v hd h⟩
  intro n results d' h
  exact Decoder.DecodeN_consistent P n (NewDecoder r) d' results (Or.inr ⟨by simp [NewDecoder], rfl⟩) h

/-- C17: `readNonWhitespace` on a stream `w ++ [c] ++ rest`, with `w` whitespace and
`c` not, returns `(c, nil)` and leaves exactly `rest`; on a stream that holds
only whitespace it returns the error that ends the stream; whenever it returns
`(c, nil)`, `c` is not whitespace and the bytes it skipped are all whitespace;
and whitespace is the four bytes 0x20, 0x09, 0x0A, 0x0D. -/
theorem readNonWhitespace_skips_whitespace (d : Decoder) :
    (∀ w c rest, d.r.bytes = w ++ c :: rest → blank w = true → isWhitespace c = false →
      ∃ mr, d.readNonWhitespace = some ((c, none), mr) ∧ mr.bytes = rest ∧
        mr.final = d.r.final) ∧
    (blank d.r.bytes = true →
      ∃ mr, d.readNonWhitespace = some ((0, some d.r.final), mr) ∧ mr.bytes = []) ∧
    (∀ c mr, d.readNonWhitespace = some ((c, none), mr) →
      isWhitespace c = false ∧
      ∃ w, blank w = true ∧ d.r.bytes = w ++ c :: mr.bytes ∧
        d.r.remaining = w ++ c :: mr.remaining) ∧
    (∀ c : Byte, isWhitespace c = true ↔ c = 0x20 ∨ c = 0x09 ∨ c = 0x0A ∨ c = 0x0D) := by
  refine ⟨fun w c rest hb hw hc => d.readNonWhitespace_byte w c rest hb hw hc, ?_, ?_, ?_⟩
  · intro hw
    rcases readNonWhitespaceLoop_spec (d.r.size + 1) d.r (by omega) with
      ⟨w, c, mr', _, _, hc, hb, _, _, _⟩ | ⟨mr', h, _, hb, _⟩
    · have := (blank_iff _).mp hw c (by rw [hb]; simp)
      rw [this] at hc
      simp at hc
    · exact ⟨mr', h, hb⟩
  · intro c mr h
    rcases readNonWhitespaceLoop_spec (d.r.size + 1) d.r (by omega) with
      ⟨w, c', mr', h', hw, hc, hb, hr, _, _⟩ | ⟨mr', h', _, _, _⟩
    · have heq : ((c', (none : Option Err)), mr') = ((c, none), mr) := by
        have := h'.symm.trans h
        simpa using this
      simp only [Prod.mk.injEq, and_true] at heq
      obtain ⟨h1, h2⟩ := heq
      subst h1
      subst h2
      exact ⟨hc, w, (blank_iff _).mpr hw, hb, hr⟩
    · have := h'.symm.trans h
      simp at this
  · intro c
    simp only [isWhitespace, Bool.or_eq_true, beq_iff_eq]
    tauto

/-- Witness of C17: the stream tab, space, `x`, `y`. -/
theorem readNonWhitespace_skips_whitespace_witness :
    ((NewDecoder (.bytesReader [0x09, 0x20, 0x78, 0x79])).r.bytes = [0x09, 0x20] ++ 0x78 :: [0x79] ∧
      blank [0x09, 0x20] = true ∧ isWhitespace 0x78 = false) ∧
    ∃ mr, (NewDecoder (.bytesReader [0x09, 0x20, 0x78, 0x79])).readNonWhitespace =
        some ((0x78, none), mr) ∧ mr.bytes = [0x79] ∧
      mr.final = (NewDecoder (.bytesReader [0x09, 0x20, 0x78, 0x79])).r.final :=
  ⟨⟨by decide, by decide, by decide⟩,
    (readNonWhitespace_skips_whitespace (NewDecoder (.bytesReader [0x09, 0x20, 0x78, 0x79]))).1
      [0x09, 0x20] 0x78 [0x79] (by decide) (by decide) (by decide)⟩

/-- C18: `Insert` of a `bytes.Reader` with zero remaining bytes, the only reader
`isEmpty` detects, leaves the stack as it is; `Insert` of any other reader puts
it on top: the depth grows by one and the readers below are the readers
present before, in their order. -/
theorem Insert_frame (mr : stackReader) :
    mr.Insert (.bytesReader []) = mr ∧
    (∀ r, isEmpty r = true ↔ r = .bytesReader []) ∧
    (∀ r, isEmpty r = true → mr.Insert r = mr) ∧
    (∀ r, isEmpty r = false →
      (mr.Insert r).readers = r :: mr.readers ∧
      (mr.Insert r).readers.length = mr.readers.length + 1 ∧
      (mr.Insert r).readers.tail = mr.readers) := by
  refine ⟨rfl, ?_, ?_, ?_⟩
  · intro r
    cases r with
    | bytesReader s =>
      cases s with
      | nil => simp [isEmpty]
      | cons b s => simp [isEmpty]
    | stream _ _ _ => simp [isEmpty]
  · intro r h
    simp [stackReader.Insert, h]
  · intro r h
    simp [stackReader.Insert, h]

/-- Witness of C18: a surplus of one byte is put on top of the stack. -/
theorem Insert_frame_witness :
    isEmpty (.bytesReader [0x2C]) = false ∧
    ((⟨[.stream [[0x31]] false .EOF]⟩ : stackReader).Insert (.bytesReader [0x2C])).readers =
      [.bytesReader [0x2C], .stream [[0x31]] false .EOF] :=
  ⟨by decide,
    ((Insert_frame ⟨[.stream [[0x31]] false .EOF]⟩).2.2.2 (.bytesReader [0x2C]) (by decide)).1⟩

/-- C19: when the next non-whitespace byte is the separator (`,` in state `after`,
`[` in state `start`) and the next one after it is `]`, the framing read stops
behind the separator with `]` still on the stack, and the value parser is run
on it. For a parser that skips leading whitespace and rejects `]` with an error
`e` other than `io.EOF`, the parser returns `e`, and `Decode` returns `e`, not
`io.EOF`, and leaves the decoder broken with `e` stored. -/
theorem Decode_trailing_comma {S V : Type} (P : ValueParser S V) (d : Decoder)
    (w w2 rest : List Byte) (sep : Byte) (e : Err)
    (hskip : ∀ c, isWhitespace c = true → P.step P.init c = .more P.init)
    (hclose : P.step P.init 0x5D = .error e) (he : e ≠ .EOF)
    (hst : (d.state = .after ∧ sep = 0x2C) ∨ (d.state = .start ∧ sep = 0x5B))
    (hb : d.r.bytes = w ++ sep :: (w2 ++ 0x5D :: rest)) (hw : blank w = true)
    (hw2 : blank w2 = true) :
    ∃ mr mr' d', d.readNonWhitespace = some ((sep, none), mr) ∧
      mr.bytes = w2 ++ 0x5D :: rest ∧ P.Decode mr = some (.error e, [], mr') ∧
      d.Decode P = some ((some e, none), d') ∧ d'.state = .broken ∧ d'.err = some e := by
  have hsep : isWhitespace sep = false := by
    rcases hst with ⟨_, h⟩ | ⟨_, h⟩ <;> subst h <;> decide
  obtain ⟨mr, h, hbytes, _⟩ := d.readNonWhitespace_byte w sep _ hb hw hsep
  have hscan : P.scanAll P.init [] mr.bytes mr.final = .error e := by
    rw [hbytes]
    simp only [ValueParser.scanAll, List.length_nil, P.scan_skip hskip w2 _ 0 hw2,
      ValueParser.scan, hclose]
  rcases P.Decode_spec mr with ⟨e', mr', hs, hD⟩ | ⟨n, _, _, hs, _⟩
  · rw [hscan] at hs
    simp only [Except.error.injEq] at hs
    subst hs
    refine ⟨mr, mr', ⟨.broken, mr', some e⟩, h, hbytes, hD, ?_, rfl, rfl⟩
    rcases hst with ⟨hs, hc⟩ | ⟨hs, hc⟩
    · subst hc
      simp [Decoder.Decode, hs, h, Decoder.decodeItem, hD, he, Decoder.breaks]
    · subst hc
      simp [Decoder.Decode, hs, h, Decoder.decodeItem, hD, he, Decoder.breaks]
  · rw [hscan] at hs
    simp at hs

/-- Witness of C19: a decoder in state `after` whose stack holds `,]`. -/
theorem Decode_trailing_comma_witness :
    ((⟨.after, ⟨[.bytesReader [0x2C, 0x5D]]⟩, none⟩ : Decoder).Decode sampleParser =
      some ((some (.other 1), none),
        ⟨.broken, ⟨[]⟩, some (.other 1)⟩)) ∧
    ∃ mr mr' d',
      (⟨.after, ⟨[.bytesReader [0x2C, 0x5D]]⟩, none⟩ : Decoder).readNonWhitespace =
        some ((0x2C, none), mr) ∧
      mr.bytes = [] ++ 0x5D :: [] ∧ sampleParser.Decode mr = some (.error (.other 1), [], mr') ∧
      (⟨.after, ⟨[.bytesReader [0x2C, 0x5D]]⟩, none⟩ : Decoder).Decode sampleParser =
        some ((some (.other 1), none), d') ∧
      d'.state = .broken ∧ d'.err = some (.other 1) :=
  ⟨by decide,
    Decode_trailing_comma sampleParser ⟨.after, ⟨[.bytesReader [0x2C, 0x5D]]⟩, none⟩ [] [] []
      0x2C (.other 1) sampleParser_skip rfl (by decide) (Or.inl ⟨rfl, rfl⟩) rfl (by decide)
      (by decide)⟩

end Jsonarray
